import Mathlib

/-!
Shallow embedding of the BPE tokenizer trainer found in
assignment1-basics/cs336_basics/Part2/BPETokenizerTraining.py.

Bytes are modelled as natural numbers, byte strings as lists of naturals,
and Python dictionaries as association lists kept in insertion order
(updates keep the entry position, fresh keys are appended, matching CPython
dict semantics).  Special tokens are represented directly by their UTF-8
byte sequences, since the source encodes each special token immediately
and never uses the string form otherwise.  The read-ahead loop of
find_chunk_boundaries, the scanning loop of chunk2token and the merge loop
of BPETokenizerTraining are while loops in the source; they are modelled
with an explicit fuel argument that dominates their iteration count.  The
IndexError raised by the driver when more than one process is requested
together with an empty special-token list is modelled by an Option result.
-/

/-- Embedding of merge_pair_in_tokens: scan left to right, replace every
adjacent occurrence of the pair by the fresh id, advancing by two on a
match and by one otherwise. -/
def merge_pair_in_tokens : List Nat → Nat × Nat → Nat → List Nat
  | x :: y :: rest, p, nid =>
    if x = p.1 ∧ y = p.2 then nid :: merge_pair_in_tokens rest p nid
    else x :: merge_pair_in_tokens (y :: rest) p nid
  | l, _, _ => l

/-- Number of pair occurrences that the left-to-right non-overlapping scan
of merge_pair_in_tokens replaces. -/
def countPairOcc : List Nat → Nat × Nat → Nat
  | x :: y :: rest, p =>
    if x = p.1 ∧ y = p.2 then countPairOcc rest p + 1
    else countPairOcc (y :: rest) p
  | _, _ => 0

/-- One dict update pairs_num[p] = pairs_num.get(p, 0) + 1: an existing key
keeps its position in the association list, a fresh key is appended. -/
def updateCount : List ((Nat × Nat) × Nat) → Nat × Nat → List ((Nat × Nat) × Nat)
  | [], p => [(p, 1)]
  | e :: rest, p =>
    if e.1 = p then (e.1, e.2 + 1) :: rest
    else e :: updateCount rest p

/-- Embedding of count_pairs: fold the dict update over the adjacent pairs
(tokens[i], tokens[i+1]) in scan order. -/
def count_pairs (tokens : List Nat) : List ((Nat × Nat) × Nat) :=
  (tokens.zip tokens.tail).foldl updateCount []

/-- Dict lookup in the pair-frequency table. -/
def findCount (m : List ((Nat × Nat) × Nat)) (p : Nat × Nat) : Option Nat :=
  (m.find? (fun e => e.1 == p)).map (fun e => e.2)

/-- One comparison step of max(pair_counts, key=pair_counts.get): the best
entry is replaced only when the candidate's count is strictly larger. -/
def pickMax (best x : (Nat × Nat) × Nat) : (Nat × Nat) × Nat :=
  if best.2 < x.2 then x else best

/-- Embedding of max(pair_counts, key=pair_counts.get): iterate the entries
in insertion order keeping the first entry whose count is strictly larger
than the current best.  The [] case is never reached by the driver, which
guards the call with an emptiness test. -/
def maxPair (m : List ((Nat × Nat) × Nat)) : Nat × Nat :=
  match m with
  | [] => (0, 0)
  | e :: rest => (rest.foldl pickMax e).1

/-- Index of the first occurrence of p, used to state the tie-break rule. -/
def firstIdx : List (Nat × Nat) → Nat × Nat → Nat
  | [], _ => 0
  | x :: rest, p => if x = p then 0 else firstIdx rest p + 1

/-- Embedding of the reverse map bytes_to_id = \x7bv: k for k, v in
vocab.items()\x7d: a later entry with the same byte value overwrites an
earlier one, so the lookup takes the last matching entry. -/
def bytesToId (vocab : List (Nat × List Nat)) (b : List Nat) : Option Nat :=
  (vocab.reverse.find? (fun e => e.2 == b)).map (fun e => e.1)

/-- Dict lookup vocab[k] (keys are unique in every state the driver builds,
so taking the first matching entry is the dict semantics). -/
def dictGet (m : List (Nat × List Nat)) (k : Nat) : Option (List Nat) :=
  (m.find? (fun e => e.1 == k)).map (fun e => e.2)

/-- Dict assignment vocab[k] = v: update the value in place if the key is
present, append a fresh entry otherwise. -/
def dictSet (m : List (Nat × List Nat)) (k : Nat) (v : List Nat) : List (Nat × List Nat) :=
  if m.any (fun e => e.1 == k) then
    m.map (fun e => if e.1 == k then (k, v) else e)
  else m ++ [(k, v)]

/-- Entries created by the loop assigning ids 256, 257, ... to the special
tokens in the order supplied (new_token_place in the source). -/
def specialEntries (base : Nat) : List (List Nat) → List (Nat × List Nat)
  | [] => []
  | s :: rest => (base, s) :: specialEntries (base + 1) rest

/-- Base vocabulary: ids 0..255 map to the single bytes, then the special
tokens get consecutive ids starting at 256. -/
def baseVocab (specials : List (List Nat)) : List (Nat × List Nat) :=
  ((List.range 256).map (fun i => (i, [i]))) ++ specialEntries 256 specials

/-- Vocabulary entries appended by successive merge steps: the j-th merge
(b1, b2) creates the entry (base + j, b1 ++ b2). -/
def mergeEntries (base : Nat) : List (List Nat × List Nat) → List (Nat × List Nat)
  | [] => []
  | p :: rest => (base, p.1 ++ p.2) :: mergeEntries (base + 1) rest

/-- Inner loop of chunk2token over the special tokens: take the first
special token that both starts the remaining suffix and has its bytes in
the reverse map; a special token whose bytes are absent from the map is
skipped and the following ones are still tried, as in the source. -/
def findSpecial (b2id : List Nat → Option Nat) : List (List Nat) → List Nat → Option (Nat × Nat)
  | [], _ => none
  | s :: rest, suffix =>
    if s.isPrefixOf suffix then
      match b2id s with
      | some id => some (id, s.length)
      | none => findSpecial b2id rest suffix
    else findSpecial b2id rest suffix

/-- Scanning loop of chunk2token on the remaining suffix chunk[i:].  The
fuel dominates the number of iterations; chunk2token supplies the chunk
length, which is enough whenever every special token is nonempty (with an
empty special token present in the vocabulary the source loops forever). -/
def chunk2tokenGo (specials : List (List Nat)) (b2id : List Nat → Option Nat) :
    Nat → List Nat → List Nat
  | 0, _ => []
  | _ + 1, [] => []
  | fuel + 1, c :: rest =>
    match findSpecial b2id specials (c :: rest) with
    | some idlen => idlen.1 :: chunk2tokenGo specials b2id fuel (List.drop idlen.2 (c :: rest))
    | none =>
      match b2id [c] with
      | some id => id :: chunk2tokenGo specials b2id fuel rest
      | none => chunk2tokenGo specials b2id fuel rest

/-- Embedding of chunk2token: build the reverse map once, then scan. -/
def chunk2token (chunk : List Nat) (specials : List (List Nat))
    (vocab : List (Nat × List Nat)) : List Nat :=
  chunk2tokenGo specials (bytesToId vocab) chunk.length chunk

/-- Tokenization of a whole byte list with a given reverse map; this is
chunk2token with the reverse map abstracted, used to reason about chunk
concatenation. -/
def tokFull (specials : List (List Nat)) (b2id : List Nat → Option Nat)
    (l : List Nat) : List Nat :=
  chunk2tokenGo specials b2id l.length l

/-- Modelled from the spec wording of the Corpus Tokenizer (spec 4.2), for
comparison with chunk2token: at each position take the first special token
whose encoded bytes start the remaining suffix; emit its id and advance by
its byte length when its bytes are in the vocabulary (the spec leaves the
absent case unspecified; this model then emits nothing and still advances,
a case the comparison theorem excludes by hypothesis).  Otherwise emit the
id of the single byte at the cursor and advance by one. -/
def chunk2tokenSpecGo (specials : List (List Nat)) (b2id : List Nat → Option Nat) :
    Nat → List Nat → List Nat
  | 0, _ => []
  | _ + 1, [] => []
  | fuel + 1, c :: rest =>
    match specials.find? (fun s => s.isPrefixOf (c :: rest)) with
    | some s =>
      match b2id s with
      | some id => id :: chunk2tokenSpecGo specials b2id fuel (List.drop s.length (c :: rest))
      | none => chunk2tokenSpecGo specials b2id fuel (List.drop s.length (c :: rest))
    | none =>
      match b2id [c] with
      | some id => id :: chunk2tokenSpecGo specials b2id fuel rest
      | none => chunk2tokenSpecGo specials b2id fuel rest

/-- Spec-side tokenizer on a whole chunk. -/
def chunk2tokenSpec (chunk : List Nat) (specials : List (List Nat))
    (vocab : List (Nat × List Nat)) : List Nat :=
  chunk2tokenSpecGo specials (bytesToId vocab) chunk.length chunk

/-- Embedding of bytes.find with an index accumulator: first position at
which the needle starts, none if there is none.  An empty needle matches
at position 0, as in Python. -/
def bytesFindGo (needle : List Nat) : Nat → List Nat → Option Nat
  | i, [] => if needle.isPrefixOf [] then some i else none
  | i, c :: t => if needle.isPrefixOf (c :: t) then some i else bytesFindGo needle (i + 1) t

/-- mini_chunk.find(split_special_token). -/
def bytesFind (hay needle : List Nat) : Option Nat :=
  bytesFindGo needle 0 hay

/-- Read-ahead loop of find_chunk_boundaries: starting from a guessed
position, read 4096-byte windows; return file_size at end of file, or the
absolute position of the first occurrence of the needle inside the current
window.  The fuel dominates the number of windows. -/
def findBoundaryGo (data needle : List Nat) : Nat → Nat → Nat
  | 0, _ => data.length
  | fuel + 1, pos =>
    let mini := List.take 4096 (List.drop pos data)
    if mini.isEmpty then data.length
    else
      match bytesFind mini needle with
      | some f => pos + f
      | none => findBoundaryGo data needle fuel (pos + 4096)

/-- Boundary search from a guessed position; data.length + 1 windows always
suffice since every non-final window advances the position by 4096. -/
def findBoundary (data needle : List Nat) (pos : Nat) : Nat :=
  findBoundaryGo data needle (data.length + 1) pos

/-- Insertion into a strictly sorted list, dropping duplicates. -/
def insertSorted (x : Nat) : List Nat → List Nat
  | [] => [x]
  | y :: rest =>
    if x < y then x :: y :: rest
    else if x = y then y :: rest
    else y :: insertSorted x rest

/-- sorted(set(l)): the strictly increasing enumeration of the distinct
elements of l. -/
def sortedDedup (l : List Nat) : List Nat := l.foldr insertSorted []

/-- Embedding of find_chunk_boundaries: uniform guesses i * (L // N), the
last entry forced to L, interior guesses bi = 1 .. N-1 replaced by the
forward boundary search, then sorted and deduplicated.  The source divides
by desired_num_chunks, so it requires desired_num_chunks at least 1. -/
def find_chunk_boundaries (data : List Nat) (desired_num_chunks : Nat)
    (split_special_token : List Nat) : List Nat :=
  let file_size := data.length
  let chunk_size := file_size / desired_num_chunks
  let raw := (List.range (desired_num_chunks + 1)).map (fun bi =>
    if bi = 0 then 0
    else if bi = desired_num_chunks then file_size
    else findBoundary data split_special_token (bi * chunk_size))
  sortedDedup raw

/-- Last element of a list, with a default for the empty list. -/
def lastOr (d : Nat) : List Nat → Nat
  | [] => d
  | x :: rest => lastOr x rest

/-- Chunks cut from the data by consecutive boundaries, exactly as the
driver reads them back (seek start, read end - start). -/
def chunksOf (data : List Nat) (bs : List Nat) : List (List Nat) :=
  (bs.zip bs.tail).map (fun e => List.take (e.2 - e.1) (List.drop e.1 data))

/-- Concatenation of the chunks cut by consecutive boundaries. -/
def sliceJoin (data : List Nat) (bs : List Nat) : List Nat :=
  (chunksOf data bs).flatten

/-- State owned by the training driver: the vocabulary and merge list under
construction, the current token sequence and now_vocab_size. -/
structure TrainState where
  vocab : List (Nat × List Nat)
  merge : List (List Nat × List Nat)
  tokens : List Nat
  nowSize : Nat

/-- One iteration of the merge loop: recompute the pair-frequency table and
stop if it is empty; otherwise select the most frequent pair, look the two
byte values up in the current vocabulary, record the new vocabulary entry
under the next id and the merge-list entry, and rewrite the token
sequence.  The lookups use a default that is never taken in a run (every
token id of a run is a vocabulary key). -/
def bpeStep (st : TrainState) : Option TrainState :=
  let pc := count_pairs st.tokens
  if pc.isEmpty then none
  else
    let p := maxPair pc
    let nid := st.nowSize
    let byte1 := (dictGet st.vocab p.1).getD []
    let byte2 := (dictGet st.vocab p.2).getD []
    some ⟨dictSet st.vocab nid (byte1 ++ byte2),
          st.merge ++ [(byte1, byte2)],
          merge_pair_in_tokens st.tokens p nid,
          st.nowSize + 1⟩

/-- The while now_vocab_size < vocab_size loop, with fuel dominating the
iteration count. -/
def runSteps (target : Nat) : Nat → TrainState → TrainState
  | 0, st => st
  | fuel + 1, st =>
    if st.nowSize < target then
      match bpeStep st with
      | some st2 => runSteps target fuel st2
      | none => st
    else st

/-- One guarded loop turn: test now_vocab_size < vocab_size, run one merge
step, and stop on an empty pair table.  runSteps with one more unit of
fuel applies exactly one more of these turns. -/
def loopOnce (target : Nat) (st : TrainState) : TrainState :=
  if st.nowSize < target then
    match bpeStep st with
    | some st2 => st2
    | none => st
  else st

/-- Invariant of the merge loop: the vocabulary is the base vocabulary
followed by one concatenation entry per recorded merge, now_vocab_size
counts the entries, and every live token id is below it. -/
def TrainInv (specials : List (List Nat)) (st : TrainState) : Prop :=
  st.vocab = baseVocab specials ++ mergeEntries (256 + specials.length) st.merge
  ∧ st.nowSize = 256 + specials.length + st.merge.length
  ∧ ∀ t ∈ st.tokens, t < st.nowSize

/-- Driver state entering the merge loop: base vocabulary, empty merge
list, the tokenized corpus, and now_vocab_size = len(vocab). -/
def initState (specials : List (List Nat)) (tks : List Nat) : TrainState :=
  ⟨baseVocab specials, [], tks, (baseVocab specials).length⟩

/-- Tokenizing stage of the driver.  With num_process > 1 the corpus is cut
at the boundaries computed for the first special token and each chunk is
tokenized against the base vocabulary, the per-chunk outputs concatenated
in corpus order; requesting that with an empty special-token list is the
IndexError of the source, modelled as none.  Otherwise the whole corpus is
tokenized in one pass. -/
def trainTokens (data : List Nat) (specials : List (List Nat)) (num_process : Nat) :
    Option (List Nat) :=
  if 1 < num_process then
    match specials with
    | [] => none
    | s0 :: _ =>
      let bs := find_chunk_boundaries data num_process s0
      some ((chunksOf data bs).map
        (fun ch => chunk2token ch specials (baseVocab specials))).flatten
  else some (chunk2token data specials (baseVocab specials))

/-- Full training run down to the final driver state. -/
def trainFinal (data : List Nat) (vocab_size : Nat) (specials : List (List Nat))
    (num_process : Nat) : Option TrainState :=
  (trainTokens data specials num_process).map
    (fun tks => runSteps vocab_size vocab_size (initState specials tks))

/-- Embedding of BPETokenizerTraining: the returned vocabulary and merge
list, or none for the configuration the source dies on. -/
def BPETokenizerTraining (data : List Nat) (vocab_size : Nat)
    (specials : List (List Nat)) (num_process : Nat) :
    Option (List (Nat × List Nat) × List (List Nat × List Nat)) :=
  (trainFinal data vocab_size specials num_process).map
    (fun st => (st.vocab, st.merge))


/-! ## Generic helpers -/

/-- Induction principle following the two-speed recursion of the merge scan. -/
theorem twoStepInduction {P : List Nat → Prop} (h0 : P []) (h1 : ∀ x, P [x])
    (h2 : ∀ x y rest, P rest → P (y :: rest) → P (x :: y :: rest)) : ∀ l, P l := by
  have key : ∀ n l, List.length l ≤ n → P l := by
    intro n
    induction n with
    | zero =>
      intro l hl
      have : l = [] := List.eq_nil_of_length_eq_zero (Nat.le_zero.mp hl)
      simpa [this] using h0
    | succ n ih =>
      intro l hl
      match l with
      | [] => exact h0
      | [x] => exact h1 x
      | x :: y :: rest =>
        refine h2 x y rest (ih rest ?_) (ih (y :: rest) ?_) <;>
          simp only [List.length_cons] at hl ⊢ <;> omega
  exact fun l => key l.length l le_rfl

/-! ## Claim C1: merge application -/

theorem merge_pair_cons2 (x y : Nat) (rest : List Nat) (p : Nat × Nat) (nid : Nat) :
    merge_pair_in_tokens (x :: y :: rest) p nid =
      if x = p.1 ∧ y = p.2 then nid :: merge_pair_in_tokens rest p nid
      else x :: merge_pair_in_tokens (y :: rest) p nid := rfl

theorem countPairOcc_cons2 (x y : Nat) (rest : List Nat) (p : Nat × Nat) :
    countPairOcc (x :: y :: rest) p =
      if x = p.1 ∧ y = p.2 then countPairOcc rest p + 1
      else countPairOcc (y :: rest) p := rfl

theorem countPairOcc_le (p : Nat × Nat) : ∀ l : List Nat, countPairOcc l p ≤ l.length := by
  refine twoStepInduction ?_ ?_ ?_
  · simp [countPairOcc]
  · intro x; simp [countPairOcc]
  · intro x y rest ih1 ih2
    rw [countPairOcc_cons2]
    by_cases h : x = p.1 ∧ y = p.2
    · rw [if_pos h]; simp only [List.length_cons]; omega
    · rw [if_neg h]; simp only [List.length_cons] at ih2 ⊢; omega

theorem merge_pair_length (p : Nat × Nat) (nid : Nat) :
    ∀ l : List Nat,
      (merge_pair_in_tokens l p nid).length = l.length - countPairOcc l p := by
  refine twoStepInduction ?_ ?_ ?_
  · simp [merge_pair_in_tokens, countPairOcc]
  · intro x; simp [merge_pair_in_tokens, countPairOcc]
  · intro x y rest ih1 ih2
    rw [merge_pair_cons2, countPairOcc_cons2]
    have hb1 := countPairOcc_le p rest
    have hb2 := countPairOcc_le p (y :: rest)
    by_cases h : x = p.1 ∧ y = p.2
    · rw [if_pos h, if_pos h]
      simp only [List.length_cons] at ih1 ⊢
      omega
    · rw [if_neg h, if_neg h]
      simp only [List.length_cons] at ih2 hb2 ⊢
      omega

theorem countPairOcc_eq_zero_iff (a b : Nat) :
    ∀ l : List Nat, countPairOcc l (a, b) = 0 ↔ (a, b) ∉ l.zip l.tail := by
  refine twoStepInduction ?_ ?_ ?_
  · simp [countPairOcc]
  · intro x; simp [countPairOcc]
  · intro x y rest ih1 ih2
    rw [countPairOcc_cons2]
    simp only [List.tail_cons, List.zip_cons_cons, List.mem_cons]
    by_cases h : x = (a, b).1 ∧ y = (a, b).2
    · have hx : x = a := h.1
      have hy : y = b := h.2
      subst hx; subst hy
      rw [if_pos h]
      simp
    · rw [if_neg h]
      rw [ih2]
      simp only [List.tail_cons]
      have hne : ¬ (a, b) = (x, y) := by
        intro he
        have hx : x = a := (congrArg Prod.fst he).symm
        have hy : y = b := (congrArg Prod.snd he).symm
        exact h ⟨hx, hy⟩
      constructor
      · intro hnm hor
        rcases hor with hor | hor
        · exact hne hor
        · exact hnm hor
      · intro hnm hmem
        exact hnm (Or.inr hmem)

theorem merge_pair_of_count_zero (p : Nat × Nat) (nid : Nat) :
    ∀ l : List Nat, countPairOcc l p = 0 → merge_pair_in_tokens l p nid = l := by
  refine twoStepInduction ?_ ?_ ?_
  · simp [merge_pair_in_tokens]
  · intro x; simp [merge_pair_in_tokens]
  · intro x y rest ih1 ih2 hz
    rw [countPairOcc_cons2] at hz
    by_cases h : x = p.1 ∧ y = p.2
    · rw [if_pos h] at hz; omega
    · rw [if_neg h] at hz
      rw [merge_pair_cons2, if_neg h, ih2 hz]

/-- Claim C1: merge_pair_in_tokens scans left to right replacing every
non-overlapping adjacent occurrence of the pair with the new id, advancing
by two on a match; the result length is the old length minus the number of
replaced occurrences, hence never larger; the occurrence count is zero
exactly when the pair never occurs adjacently, in which case the sequence
is returned unchanged, and the length strictly decreases whenever the pair
does occur; on [a, a, b] with a different from b only the rightmost
adjacent occurrence merges, giving [a, nid]. -/
theorem merge_pair_in_tokens_spec (tokens : List Nat) (a b nid : Nat) (hab : a ≠ b) :
    (merge_pair_in_tokens tokens (a, b) nid).length
        = tokens.length - countPairOcc tokens (a, b)
    ∧ (merge_pair_in_tokens tokens (a, b) nid).length ≤ tokens.length
    ∧ (countPairOcc tokens (a, b) = 0 ↔ (a, b) ∉ tokens.zip tokens.tail)
    ∧ (countPairOcc tokens (a, b) = 0 → merge_pair_in_tokens tokens (a, b) nid = tokens)
    ∧ ((a, b) ∈ tokens.zip tokens.tail →
        (merge_pair_in_tokens tokens (a, b) nid).length < tokens.length)
    ∧ merge_pair_in_tokens [a, a, b] (a, b) nid = [a, nid] := by
  have hlen := merge_pair_length (a, b) nid tokens
  have hle := countPairOcc_le (a, b) tokens
  have hzero := countPairOcc_eq_zero_iff a b tokens
  refine ⟨hlen, by omega, hzero, merge_pair_of_count_zero (a, b) nid tokens, ?_, ?_⟩
  · intro hmem
    have hpos : countPairOcc tokens (a, b) ≠ 0 := by
      intro h0; exact (hzero.mp h0) hmem
    have htok : tokens.length ≠ 0 := by
      intro h0
      have : tokens = [] := List.eq_nil_of_length_eq_zero h0
      simp [this] at hmem
    omega
  · rw [merge_pair_cons2, if_neg (by simp [hab]), merge_pair_cons2, if_pos ⟨rfl, rfl⟩]
    rfl

/-- Witness for C1 at tokens = [5, 5, 7], pair (5, 7), new id 300. -/
theorem merge_pair_in_tokens_spec_witness :
    (merge_pair_in_tokens [5, 5, 7] (5, 7) 300).length
        = ([5, 5, 7] : List Nat).length - countPairOcc [5, 5, 7] (5, 7)
    ∧ (merge_pair_in_tokens [5, 5, 7] (5, 7) 300).length ≤ ([5, 5, 7] : List Nat).length
    ∧ (countPairOcc [5, 5, 7] (5, 7) = 0
        ↔ (5, 7) ∉ ([5, 5, 7] : List Nat).zip ([5, 5, 7] : List Nat).tail)
    ∧ (countPairOcc [5, 5, 7] (5, 7) = 0
        → merge_pair_in_tokens [5, 5, 7] (5, 7) 300 = [5, 5, 7])
    ∧ ((5, 7) ∈ ([5, 5, 7] : List Nat).zip ([5, 5, 7] : List Nat).tail
        → (merge_pair_in_tokens [5, 5, 7] (5, 7) 300).length < ([5, 5, 7] : List Nat).length)
    ∧ merge_pair_in_tokens [5, 5, 7] (5, 7) 300 = [5, 300] :=
  merge_pair_in_tokens_spec [5, 5, 7] 5 7 300 (by decide)

/-! ## Claim C8: pair frequency counter -/

theorem findCount_cons (k : Nat × Nat) (v : Nat) (rest : List ((Nat × Nat) × Nat))
    (p : Nat × Nat) :
    findCount ((k, v) :: rest) p = if k = p then some v else findCount rest p := by
  by_cases h : k = p
  · rw [if_pos h]
    simp [findCount, List.find?_cons_of_pos, h]
  · rw [if_neg h]
    have hb : (((k, v) : (Nat × Nat) × Nat).1 == p) = false := by
      simp [h]
    simp [findCount, List.find?_cons_of_neg, hb]

theorem updateCount_cons (e : (Nat × Nat) × Nat) (rest : List ((Nat × Nat) × Nat))
    (p : Nat × Nat) :
    updateCount (e :: rest) p =
      if e.1 = p then (e.1, e.2 + 1) :: rest else e :: updateCount rest p := rfl

theorem findCount_updateCount (q p : Nat × Nat) :
    ∀ acc, findCount (updateCount acc q) p =
      if p = q then some ((findCount acc p).getD 0 + 1) else findCount acc p := by
  intro acc
  induction acc with
  | nil =>
    by_cases h : p = q
    · rw [if_pos h]
      show findCount [(q, 1)] p = _
      rw [findCount_cons, if_pos h.symm]
      rfl
    · rw [if_neg h]
      show findCount [(q, 1)] p = findCount [] p
      rw [findCount_cons, if_neg (fun he => h he.symm)]
  | cons e rest ih =>
    obtain ⟨k, v⟩ := e
    rw [updateCount_cons]
    by_cases hk : k = q
    · rw [if_pos hk]
      by_cases hp : p = q
      · have hkp : k = p := hk.trans hp.symm
        rw [if_pos hp, findCount_cons, if_pos hkp, findCount_cons, if_pos hkp]
        rfl
      · have hkp : ¬ k = p := fun he => hp (he.symm.trans hk)
        rw [if_neg hp, findCount_cons, if_neg hkp, findCount_cons, if_neg hkp]
    · rw [if_neg hk]
      by_cases hkp : k = p
      · have hp : ¬ p = q := fun he => hk (hkp.trans he)
        rw [if_neg hp, findCount_cons, if_pos hkp, findCount_cons, if_pos hkp]
      · rw [findCount_cons, if_neg hkp, ih, findCount_cons, if_neg hkp]

theorem findCount_foldl (p : Nat × Nat) :
    ∀ (ps : List (Nat × Nat)) (acc : List ((Nat × Nat) × Nat)),
      findCount (ps.foldl updateCount acc) p =
        if findCount acc p = none ∧ ps.count p = 0 then none
        else some ((findCount acc p).getD 0 + ps.count p) := by
  intro ps
  induction ps with
  | nil =>
    intro acc
    simp only [List.foldl_nil, List.count_nil]
    cases h : findCount acc p <;> simp [h]
  | cons q ps ih =>
    intro acc
    rw [List.foldl_cons, ih, findCount_updateCount q p acc]
    by_cases hpq : p = q
    · rw [if_pos hpq]
      have hc : (q :: ps).count p = ps.count p + 1 := by
        simp [List.count_cons, hpq.symm]
      rw [hc]
      have hne : ¬ ((some ((findCount acc p).getD 0 + 1) = none) ∧ ps.count p = 0) := by
        simp
      rw [if_neg hne]
      cases h : findCount acc p <;> simp [h] <;> omega
    · rw [if_neg hpq]
      have hqp : ¬ q = p := fun he => hpq he.symm
      have hc : (q :: ps).count p = ps.count p := by
        simp [List.count_cons, hqp]
      rw [hc]

/-- Claim C8: count_pairs maps exactly the distinct adjacent pairs of the
token sequence to their exact occurrence counts; a pair that never occurs
adjacently is absent from the table rather than present with count zero. -/
theorem count_pairs_spec (tokens : List Nat) (p : Nat × Nat) :
    findCount (count_pairs tokens) p =
      (if (tokens.zip tokens.tail).count p = 0 then none
       else some ((tokens.zip tokens.tail).count p))
    ∧ ((∃ c, findCount (count_pairs tokens) p = some c) ↔ p ∈ tokens.zip tokens.tail) := by
  have h := findCount_foldl p (tokens.zip tokens.tail) []
  have hnil : findCount [] p = none := rfl
  rw [hnil] at h
  simp only [Option.getD_none, Nat.zero_add, true_and] at h
  rw [count_pairs]
  constructor
  · exact h
  · rw [h]
    by_cases hz : (tokens.zip tokens.tail).count p = 0
    · rw [if_pos hz]
      simp [List.count_eq_zero.mp hz]
    · rw [if_neg hz]
      constructor
      · intro _
        exact List.count_pos_iff.mp (Nat.pos_of_ne_zero hz)
      · intro _
        exact ⟨(tokens.zip tokens.tail).count p, rfl⟩

/-! ## Claim C10: pair selection and its tie-break -/

theorem pickMax_fold (e : (Nat × Nat) × Nat) :
    ∀ rest : List ((Nat × Nat) × Nat),
      ∃ l1 l2, e :: rest = l1 ++ (rest.foldl pickMax e) :: l2
        ∧ (∀ x ∈ l1, x.2 < (rest.foldl pickMax e).2)
        ∧ (∀ x ∈ e :: rest, x.2 ≤ (rest.foldl pickMax e).2) := by
  intro rest
  induction rest generalizing e with
  | nil =>
    refine ⟨[], [], rfl, by simp, ?_⟩
    intro x hx
    simp only [List.foldl_nil]
    rcases List.mem_singleton.mp hx with h
    exact h ▸ le_rfl
  | cons x rest ih =>
    rw [List.foldl_cons]
    by_cases h : e.2 < x.2
    · have hp : pickMax e x = x := if_pos h
      rw [hp]
      obtain ⟨l1, l2, hsplit, hlt, hle⟩ := ih x
      have hxr : x.2 ≤ (List.foldl pickMax x rest).2 :=
        hle x (List.mem_cons_self x rest)
      refine ⟨e :: l1, l2, by rw [List.cons_append, ← hsplit], ?_, ?_⟩
      · intro y hy
        rcases List.mem_cons.mp hy with hy | hy
        · subst hy; exact lt_of_lt_of_le h hxr
        · exact hlt y hy
      · intro y hy
        rcases List.mem_cons.mp hy with hy | hy
        · subst hy; exact le_of_lt (lt_of_lt_of_le h hxr)
        · exact hle y hy
    · have hp : pickMax e x = e := if_neg h
      rw [hp]
      obtain ⟨l1, l2, hsplit, hlt, hle⟩ := ih e
      match l1, hsplit with
      | [], hsplit =>
        simp only [List.nil_append] at hsplit
        have hre : List.foldl pickMax e rest = e := by
          injection hsplit with h1 h2
          exact h1.symm
        have hl2 : rest = l2 := by
          injection hsplit with h1 h2
        refine ⟨[], x :: rest, by simp [hre], by simp, ?_⟩
        intro y hy
        rcases List.mem_cons.mp hy with hy | hy
        · subst hy; rw [hre]
        · rcases List.mem_cons.mp hy with hy2 | hy2
          · subst hy2; rw [hre]; omega
          · exact hle y (List.mem_cons_of_mem _ hy2)
      | a :: l1', hsplit =>
        rw [List.cons_append] at hsplit
        have ha : e = a := by injection hsplit with h1 h2
        have hrest : rest = l1' ++ (List.foldl pickMax e rest) :: l2 := by
          injection hsplit with h1 h2
        have her : e.2 < (List.foldl pickMax e rest).2 := by
          have := hlt a (List.mem_cons_self a l1')
          rw [← ha] at this; exact this
        refine ⟨e :: x :: l1', l2, ?_, ?_, ?_⟩
        · rw [List.cons_append, List.cons_append, ← hrest]
        · intro y hy
          rcases List.mem_cons.mp hy with hy | hy
          · subst hy; exact her
          rcases List.mem_cons.mp hy with hy | hy
          · subst hy; exact lt_of_le_of_lt (le_of_not_lt h) her
          · exact hlt y (ha ▸ List.mem_cons_of_mem a hy)
        · intro y hy
          rcases List.mem_cons.mp hy with hy | hy
          · subst hy; exact le_of_lt her
          rcases List.mem_cons.mp hy with hy | hy
          · subst hy; exact le_of_lt (lt_of_le_of_lt (le_of_not_lt h) her)
          · exact hle y (List.mem_cons_of_mem e (hrest ▸ hy))

theorem firstIdx_cons (x : Nat × Nat) (l : List (Nat × Nat)) (p : Nat × Nat) :
    firstIdx (x :: l) p = if x = p then 0 else firstIdx l p + 1 := rfl

theorem firstIdx_lt_length (p : Nat × Nat) :
    ∀ l : List (Nat × Nat), p ∈ l → firstIdx l p < l.length := by
  intro l
  induction l with
  | nil => intro h; simp at h
  | cons x rest ih =>
    intro h
    rw [firstIdx_cons]
    by_cases hx : x = p
    · rw [if_pos hx]; simp
    · rw [if_neg hx]
      have : p ∈ rest := by
        rcases List.mem_cons.mp h with h | h
        · exact absurd h.symm hx
        · exact h
      simpa using Nat.succ_lt_succ (ih this)

theorem firstIdx_append_left (p : Nat × Nat) :
    ∀ l1 l2 : List (Nat × Nat), p ∈ l1 → firstIdx (l1 ++ l2) p = firstIdx l1 p := by
  intro l1
  induction l1 with
  | nil => intro l2 h; simp at h
  | cons x rest ih =>
    intro l2 h
    rw [List.cons_append, firstIdx_cons, firstIdx_cons]
    by_cases hx : x = p
    · rw [if_pos hx, if_pos hx]
    · rw [if_neg hx, if_neg hx]
      have : p ∈ rest := by
        rcases List.mem_cons.mp h with h | h
        · exact absurd h.symm hx
        · exact h
      rw [ih l2 this]

theorem firstIdx_append_right (p : Nat × Nat) :
    ∀ l1 l2 : List (Nat × Nat), p ∉ l1 →
      firstIdx (l1 ++ l2) p = l1.length + firstIdx l2 p := by
  intro l1
  induction l1 with
  | nil => intro l2 _; simp
  | cons x rest ih =>
    intro l2 h
    have hx : ¬ x = p := fun he => h (by rw [he]; exact List.mem_cons_self p rest)
    have hr : p ∉ rest := fun hm => h (List.mem_cons_of_mem x hm)
    rw [List.cons_append, firstIdx_cons, if_neg hx, ih l2 hr, List.length_cons]
    omega

theorem updateCount_keys (q : Nat × Nat) :
    ∀ acc, (updateCount acc q).map Prod.fst =
      if q ∈ acc.map Prod.fst then acc.map Prod.fst else acc.map Prod.fst ++ [q] := by
  intro acc
  induction acc with
  | nil => simp [updateCount]
  | cons e rest ih =>
    rw [updateCount_cons]
    by_cases he : e.1 = q
    · rw [if_pos he]
      have : q ∈ (e :: rest).map Prod.fst := by
        simp [List.mem_cons, he.symm]
      rw [if_pos this]
      simp [he]
    · rw [if_neg he]
      by_cases hq : q ∈ rest.map Prod.fst
      · have : q ∈ (e :: rest).map Prod.fst := by
          simp only [List.map_cons, List.mem_cons]
          exact Or.inr hq
        rw [if_pos this]
        simp only [List.map_cons, ih, if_pos hq]
      · have : q ∉ (e :: rest).map Prod.fst := by
          simp only [List.map_cons, List.mem_cons]
          rintro (h | h)
          · exact he h.symm
          · exact hq h
        rw [if_neg this]
        simp only [List.map_cons, ih, if_neg hq, List.cons_append]

theorem count_pairs_fold_keys (ps : List (Nat × Nat)) :
    ∀ (suf pre : List (Nat × Nat)) (acc : List ((Nat × Nat) × Nat)),
      ps = pre ++ suf →
      (∀ p, p ∈ acc.map Prod.fst ↔ p ∈ pre) →
      List.Pairwise (fun a b => firstIdx ps a < firstIdx ps b) (acc.map Prod.fst) →
      (∀ p, p ∈ (suf.foldl updateCount acc).map Prod.fst ↔ p ∈ pre ++ suf)
      ∧ List.Pairwise (fun a b => firstIdx ps a < firstIdx ps b)
          ((suf.foldl updateCount acc).map Prod.fst) := by
  intro suf
  induction suf with
  | nil =>
    intro pre acc hps hkeys hpw
    simp only [List.foldl_nil, List.append_nil]
    exact ⟨hkeys, hpw⟩
  | cons q suf ih =>
    intro pre acc hps hkeys hpw
    rw [List.foldl_cons]
    have hps2 : ps = (pre ++ [q]) ++ suf := by
      rw [hps, List.append_assoc, List.singleton_append]
    have hkeys2 : ∀ p, p ∈ (updateCount acc q).map Prod.fst ↔ p ∈ pre ++ [q] := by
      intro p
      rw [updateCount_keys]
      by_cases hq : q ∈ acc.map Prod.fst
      · rw [if_pos hq, hkeys]
        constructor
        · intro h; exact List.mem_append_left [q] h
        · intro h
          rcases List.mem_append.mp h with h | h
          · exact h
          · rw [List.mem_singleton.mp h]
            exact (hkeys q).mp hq
      · rw [if_neg hq]
        constructor
        · intro h
          rcases List.mem_append.mp h with h | h
          · exact List.mem_append_left [q] ((hkeys p).mp h)
          · exact List.mem_append_right pre h
        · intro h
          rcases List.mem_append.mp h with h | h
          · exact List.mem_append_left [q] ((hkeys p).mpr h)
          · exact List.mem_append_right _ h
    have hpw2 : List.Pairwise (fun a b => firstIdx ps a < firstIdx ps b)
        ((updateCount acc q).map Prod.fst) := by
      rw [updateCount_keys]
      by_cases hq : q ∈ acc.map Prod.fst
      · rw [if_pos hq]; exact hpw
      · rw [if_neg hq]
        rw [List.pairwise_append]
        refine ⟨hpw, List.pairwise_singleton _ q, ?_⟩
        intro a ha b hb
        rw [List.mem_singleton.mp hb]
        have hap : a ∈ pre := (hkeys a).mp ha
        have hqp : q ∉ pre := fun hm => hq ((hkeys q).mpr hm)
        have h1 : firstIdx ps a < pre.length := by
          rw [hps, firstIdx_append_left a pre _ hap]
          exact firstIdx_lt_length a pre hap
        have h2 : firstIdx ps q = pre.length := by
          rw [hps, firstIdx_append_right q pre _ hqp, firstIdx_cons, if_pos rfl]
          omega
        omega
    have := ih (pre ++ [q]) (updateCount acc q) hps2 hkeys2 hpw2
    rwa [List.append_assoc, List.singleton_append] at this

theorem findCount_mem (m : List ((Nat × Nat) × Nat)) (q : Nat × Nat) (cq : Nat)
    (h : findCount m q = some cq) : (q, cq) ∈ m := by
  unfold findCount at h
  cases hf : m.find? (fun e => e.1 == q) with
  | none => rw [hf] at h; simp at h
  | some a =>
    rw [hf] at h
    simp only [Option.map_some', Option.some.injEq] at h
    have ha := List.mem_of_find?_eq_some hf
    have hq := List.find?_some hf
    obtain ⟨a1, a2⟩ := a
    simp only [beq_iff_eq] at hq
    rw [← hq, ← h]
    exact ha

theorem find_entry_of_mem_nodup :
    ∀ (m : List ((Nat × Nat) × Nat)) (k : Nat × Nat) (v : Nat),
      (m.map Prod.fst).Nodup → (k, v) ∈ m → findCount m k = some v := by
  intro m
  induction m with
  | nil => intro k v _ h; simp at h
  | cons e rest ih =>
    intro k v hnd hm
    obtain ⟨k', v'⟩ := e
    rw [findCount_cons]
    rcases List.mem_cons.mp hm with h | h
    · injection h with h1 h2
      rw [if_pos h1.symm, h2]
    · by_cases hk : k' = k
      · exfalso
        have hk1 : k ∈ rest.map Prod.fst := List.mem_map_of_mem Prod.fst h
        simp only [List.map_cons] at hnd
        have hnin := (List.nodup_cons.mp hnd).1
        rw [hk] at hnin
        exact hnin hk1
      · rw [if_neg hk]
        exact ih k v (by simp only [List.map_cons] at hnd; exact hnd.of_cons) h

/-- Claim C10: whenever the pair-frequency table is non-empty, the pair the
training loop selects carries the maximum count, and among pairs tied on
that count it is the one whose first adjacent occurrence appears earliest
in the token sequence, i.e. the first pair inserted while counting left to
right (Python dicts iterate in insertion order and max keeps the first
maximal element), so selection is deterministic. -/
theorem maxPair_tiebreak (tokens : List Nat) (hne : count_pairs tokens ≠ []) :
    ∃ c, findCount (count_pairs tokens) (maxPair (count_pairs tokens)) = some c
      ∧ maxPair (count_pairs tokens) ∈ tokens.zip tokens.tail
      ∧ (∀ q cq, findCount (count_pairs tokens) q = some cq → cq ≤ c)
      ∧ (∀ q cq, findCount (count_pairs tokens) q = some cq → cq = c →
          firstIdx (tokens.zip tokens.tail) (maxPair (count_pairs tokens))
            ≤ firstIdx (tokens.zip tokens.tail) q) := by
  obtain ⟨e, rest, hm⟩ : ∃ e rest, count_pairs tokens = e :: rest := by
    cases h : count_pairs tokens with
    | nil => exact absurd h hne
    | cons e rest => exact ⟨e, rest, rfl⟩
  have hkeys := count_pairs_fold_keys (tokens.zip tokens.tail) (tokens.zip tokens.tail) [] []
    (by simp) (by simp) (by simp)
  rw [← count_pairs] at hkeys
  obtain ⟨hmem, hpw⟩ := hkeys
  obtain ⟨l1, l2, hsplit, hlt, hle⟩ := pickMax_fold e rest
  set r := rest.foldl pickMax e with hr
  have hmax : maxPair (count_pairs tokens) = r.1 := by rw [hm]; rfl
  have hrm : r ∈ count_pairs tokens := by
    rw [hm, hsplit]
    exact List.mem_append_right l1 (List.mem_cons_self _ _)
  have hnd : ((count_pairs tokens).map Prod.fst).Nodup :=
    hpw.imp (fun hab he => absurd (he ▸ hab) (lt_irrefl _))
  have hfind : findCount (count_pairs tokens) r.1 = some r.2 :=
    find_entry_of_mem_nodup _ r.1 r.2 hnd (by simpa using hrm)
  refine ⟨r.2, by rw [hmax]; exact hfind, ?_, ?_, ?_⟩
  · rw [hmax]
    have h1 : r.1 ∈ (count_pairs tokens).map Prod.fst := List.mem_map_of_mem Prod.fst hrm
    have h2 := (hmem r.1).mp h1
    simpa using h2
  · intro q cq hq
    have hqm : (q, cq) ∈ count_pairs tokens := findCount_mem _ q cq hq
    rw [hm] at hqm
    exact hle (q, cq) hqm
  · intro q cq hq hcq
    have hqm : (q, cq) ∈ count_pairs tokens := findCount_mem _ q cq hq
    rw [hm, hsplit] at hqm
    rw [hmax]
    rcases List.mem_append.mp hqm with hq1 | hq2
    · exact absurd hcq (by have := hlt (q, cq) hq1; omega)
    · rcases List.mem_cons.mp hq2 with hq2 | hq2
      · rw [show q = r.1 from congrArg Prod.fst hq2]
      · rw [hm, hsplit, List.map_append, List.map_cons] at hpw
        obtain ⟨-, hpw2, -⟩ := List.pairwise_append.mp hpw
        have hhead := (List.pairwise_cons.mp hpw2).1
        have hqk : q ∈ l2.map Prod.fst := List.mem_map_of_mem Prod.fst hq2
        exact le_of_lt (hhead q hqk)

/-- Witness for C10 at tokens = [1, 2, 1, 2, 3], whose pair table is
[((1,2),2), ((2,1),1), ((2,3),1)] with maximum (1, 2). -/
theorem maxPair_tiebreak_witness :
    ∃ c, findCount (count_pairs [1, 2, 1, 2, 3]) (maxPair (count_pairs [1, 2, 1, 2, 3])) = some c
      ∧ maxPair (count_pairs [1, 2, 1, 2, 3])
          ∈ ([1, 2, 1, 2, 3] : List Nat).zip ([1, 2, 1, 2, 3] : List Nat).tail
      ∧ (∀ q cq, findCount (count_pairs [1, 2, 1, 2, 3]) q = some cq → cq ≤ c)
      ∧ (∀ q cq, findCount (count_pairs [1, 2, 1, 2, 3]) q = some cq → cq = c →
          firstIdx (([1, 2, 1, 2, 3] : List Nat).zip ([1, 2, 1, 2, 3] : List Nat).tail)
              (maxPair (count_pairs [1, 2, 1, 2, 3]))
            ≤ firstIdx (([1, 2, 1, 2, 3] : List Nat).zip ([1, 2, 1, 2, 3] : List Nat).tail) q) :=
  maxPair_tiebreak [1, 2, 1, 2, 3] (by decide)

/-! ## Claim C6: chunk boundary finder -/

theorem take_isPre (n : Nat) (l : List Nat) : l.take n <+: l :=
  ⟨l.drop n, List.take_append_drop n l⟩

theorem insertSorted_mem (x : Nat) :
    ∀ l a, a ∈ insertSorted x l ↔ a = x ∨ a ∈ l := by
  intro l
  induction l with
  | nil => intro a; simp [insertSorted]
  | cons y rest ih =>
    intro a
    rw [insertSorted]
    by_cases h1 : x < y
    · rw [if_pos h1]; simp [List.mem_cons]
    · rw [if_neg h1]
      by_cases h2 : x = y
      · rw [if_pos h2]
        subst h2
        simp only [List.mem_cons]
        constructor
        · intro h; exact Or.inr h
        · rintro (h | h)
          · exact Or.inl h
          · exact h
      · rw [if_neg h2]
        simp only [List.mem_cons, ih a]
        constructor
        · rintro (h | h | h)
          · exact Or.inr (Or.inl h)
          · exact Or.inl h
          · exact Or.inr (Or.inr h)
        · rintro (h | h | h)
          · exact Or.inr (Or.inl h)
          · exact Or.inl h
          · exact Or.inr (Or.inr h)

theorem insertSorted_sorted (x : Nat) :
    ∀ l, List.Pairwise (· < ·) l → List.Pairwise (· < ·) (insertSorted x l) := by
  intro l
  induction l with
  | nil => intro _; simp [insertSorted]
  | cons y rest ih =>
    intro hs
    obtain ⟨hy, hrest⟩ := List.pairwise_cons.mp hs
    rw [insertSorted]
    by_cases h1 : x < y
    · rw [if_pos h1]
      rw [List.pairwise_cons]
      refine ⟨?_, hs⟩
      intro a ha
      rcases List.mem_cons.mp ha with ha | ha
      · subst ha; exact h1
      · exact lt_trans h1 (hy a ha)
    · rw [if_neg h1]
      by_cases h2 : x = y
      · rw [if_pos h2]; exact hs
      · rw [if_neg h2]
        have hyx : y < x := by omega
        rw [List.pairwise_cons]
        refine ⟨?_, ih hrest⟩
        intro a ha
        rcases (insertSorted_mem x rest a).mp ha with ha | ha
        · subst ha; exact hyx
        · exact hy a ha

theorem insertSorted_length (x : Nat) :
    ∀ l : List Nat, (insertSorted x l).length ≤ l.length + 1 := by
  intro l
  induction l with
  | nil => simp [insertSorted]
  | cons y rest ih =>
    rw [insertSorted]
    by_cases h1 : x < y
    · rw [if_pos h1]; simp
    · rw [if_neg h1]
      by_cases h2 : x = y
      · rw [if_pos h2]; simp
      · rw [if_neg h2]
        simp only [List.length_cons]
        omega

theorem sortedDedup_cons (x : Nat) (l : List Nat) :
    sortedDedup (x :: l) = insertSorted x (sortedDedup l) := rfl

theorem sortedDedup_sorted : ∀ l : List Nat, List.Pairwise (· < ·) (sortedDedup l) := by
  intro l
  induction l with
  | nil => simp [sortedDedup]
  | cons x rest ih => rw [sortedDedup_cons]; exact insertSorted_sorted x _ ih

theorem sortedDedup_mem : ∀ (l : List Nat) (a : Nat), a ∈ sortedDedup l ↔ a ∈ l := by
  intro l
  induction l with
  | nil => intro a; simp [sortedDedup]
  | cons x rest ih =>
    intro a
    rw [sortedDedup_cons, insertSorted_mem, ih a, List.mem_cons]

theorem sortedDedup_length : ∀ l : List Nat, (sortedDedup l).length ≤ l.length := by
  intro l
  induction l with
  | nil => simp [sortedDedup]
  | cons x rest ih =>
    rw [sortedDedup_cons]
    calc (insertSorted x (sortedDedup rest)).length
        ≤ (sortedDedup rest).length + 1 := insertSorted_length x _
      _ ≤ rest.length + 1 := by omega
      _ = (x :: rest).length := by simp

theorem bytesFindGo_spec (needle : List Nat) :
    ∀ (hay : List Nat) (i res : Nat), bytesFindGo needle i hay = some res →
      i ≤ res ∧ res - i ≤ hay.length ∧ needle <+: hay.drop (res - i) := by
  intro hay
  induction hay with
  | nil =>
    intro i res h
    rw [bytesFindGo] at h
    by_cases hp : needle.isPrefixOf [] = true
    · rw [if_pos hp] at h
      obtain rfl : i = res := by injection h
      refine ⟨le_rfl, by simp, ?_⟩
      simpa using List.isPrefixOf_iff_prefix.mp hp
    · rw [if_neg hp] at h; exact absurd h (by simp)
  | cons c t ih =>
    intro i res h
    rw [bytesFindGo] at h
    by_cases hp : needle.isPrefixOf (c :: t) = true
    · rw [if_pos hp] at h
      obtain rfl : i = res := by injection h
      refine ⟨le_rfl, by simp, ?_⟩
      simpa using List.isPrefixOf_iff_prefix.mp hp
    · rw [if_neg hp] at h
      obtain ⟨h1, h2, h3⟩ := ih (i + 1) res h
      refine ⟨by omega, by simp; omega, ?_⟩
      have hk : res - i = (res - (i + 1)) + 1 := by omega
      rw [hk]
      simpa using h3

theorem bytesFind_spec (hay needle : List Nat) (f : Nat)
    (h : bytesFind hay needle = some f) :
    f ≤ hay.length ∧ needle <+: hay.drop f := by
  obtain ⟨_, h2, h3⟩ := bytesFindGo_spec needle hay 0 f h
  simpa using ⟨h2, h3⟩

theorem findBoundaryGo_succ (data needle : List Nat) (fuel pos : Nat) :
    findBoundaryGo data needle (fuel + 1) pos =
      if (List.take 4096 (List.drop pos data)).isEmpty then data.length
      else
        match bytesFind (List.take 4096 (List.drop pos data)) needle with
        | some f => pos + f
        | none => findBoundaryGo data needle fuel (pos + 4096) := rfl

theorem pos_lt_of_window_ne (data : List Nat) (pos : Nat)
    (h : (List.take 4096 (List.drop pos data)).isEmpty = false) : pos < data.length := by
  by_contra hge
  push_neg at hge
  have hd : List.drop pos data = [] := List.drop_eq_nil_of_le hge
  rw [hd] at h
  simp at h

theorem findBoundaryGo_le (data needle : List Nat) :
    ∀ fuel pos, findBoundaryGo data needle fuel pos ≤ data.length := by
  intro fuel
  induction fuel with
  | zero => intro pos; rw [findBoundaryGo]
  | succ fuel ih =>
    intro pos
    rw [findBoundaryGo_succ]
    by_cases he : (List.take 4096 (List.drop pos data)).isEmpty
    · rw [if_pos he]
    · rw [if_neg he]
      have hpos := pos_lt_of_window_ne data pos (by simpa using he)
      cases hf : bytesFind (List.take 4096 (List.drop pos data)) needle with
      | some f =>
        have hspec := (bytesFind_spec _ _ _ hf).1
        simp only [List.length_take, List.length_drop] at hspec
        simp only []
        omega
      | none => simpa using ih (pos + 4096)

theorem findBoundaryGo_ge (data needle : List Nat) :
    ∀ fuel pos, min pos data.length ≤ findBoundaryGo data needle fuel pos := by
  intro fuel
  induction fuel with
  | zero => intro pos; rw [findBoundaryGo]; omega
  | succ fuel ih =>
    intro pos
    rw [findBoundaryGo_succ]
    by_cases he : (List.take 4096 (List.drop pos data)).isEmpty
    · rw [if_pos he]; omega
    · rw [if_neg he]
      have hpos := pos_lt_of_window_ne data pos (by simpa using he)
      cases hf : bytesFind (List.take 4096 (List.drop pos data)) needle with
      | some f => simp only []; omega
      | none =>
        have := ih (pos + 4096)
        simp only []
        omega

theorem findBoundaryGo_occurs (data needle : List Nat) :
    ∀ fuel pos, findBoundaryGo data needle fuel pos = data.length
      ∨ needle <+: data.drop (findBoundaryGo data needle fuel pos) := by
  intro fuel
  induction fuel with
  | zero => intro pos; rw [findBoundaryGo]; exact Or.inl rfl
  | succ fuel ih =>
    intro pos
    rw [findBoundaryGo_succ]
    by_cases he : (List.take 4096 (List.drop pos data)).isEmpty
    · rw [if_pos he]; exact Or.inl rfl
    · rw [if_neg he]
      cases hf : bytesFind (List.take 4096 (List.drop pos data)) needle with
      | some f =>
        right
        have hspec := (bytesFind_spec _ _ _ hf).2
        rw [List.drop_take] at hspec
        rw [List.drop_drop] at hspec
        exact hspec.trans (take_isPre _ _)
      | none => exact ih (pos + 4096)

theorem findBoundary_le (data needle : List Nat) (pos : Nat) :
    findBoundary data needle pos ≤ data.length :=
  findBoundaryGo_le data needle _ pos

theorem findBoundary_ge (data needle : List Nat) (pos : Nat) :
    min pos data.length ≤ findBoundary data needle pos :=
  findBoundaryGo_ge data needle _ pos

theorem findBoundary_occurs (data needle : List Nat) (pos : Nat) :
    findBoundary data needle pos = data.length
      ∨ needle <+: data.drop (findBoundary data needle pos) :=
  findBoundaryGo_occurs data needle _ pos

theorem lastOr_mem : ∀ (l : List Nat) (d : Nat), l ≠ [] → lastOr d l ∈ l := by
  intro l
  induction l with
  | nil => intro d h; exact absurd rfl h
  | cons x rest ih =>
    intro d _
    rw [lastOr]
    cases rest with
    | nil => rw [lastOr]; exact List.mem_cons_self x []
    | cons y t => exact List.mem_cons_of_mem x (ih x (List.cons_ne_nil y t))

theorem lastOr_ge : ∀ (l : List Nat) (d : Nat),
    List.Pairwise (· ≤ ·) (d :: l) → ∀ x ∈ d :: l, x ≤ lastOr d l := by
  intro l
  induction l with
  | nil =>
    intro d _ x hx
    rw [lastOr]
    rcases List.mem_cons.mp hx with h | h
    · exact h.le.trans le_rfl
    · simp at h
  | cons y rest ih =>
    intro d hp x hx
    obtain ⟨hd, hrest⟩ := List.pairwise_cons.mp hp
    rw [lastOr]
    rcases List.mem_cons.mp hx with h | h
    · subst h
      have hmem : lastOr y rest ∈ y :: rest := by
        have := lastOr_mem (y :: rest) x (List.cons_ne_nil y rest)
        rw [lastOr] at this
        exact this
      exact hd _ hmem
    · exact ih y hrest x h

theorem sliceJoin_cons (data : List Nat) :
    ∀ (bs : List Nat) (b : Nat), List.Pairwise (· ≤ ·) (b :: bs) →
      sliceJoin data (b :: bs) = List.take (lastOr b bs - b) (List.drop b data) := by
  intro bs
  induction bs with
  | nil =>
    intro b _
    rw [lastOr]
    simp [sliceJoin, chunksOf]
  | cons b2 rest ih =>
    intro b hp
    obtain ⟨hd, hrest⟩ := List.pairwise_cons.mp hp
    have hb2 : b ≤ b2 := hd b2 (List.mem_cons_self b2 rest)
    have hlast : b2 ≤ lastOr b2 rest :=
      lastOr_ge rest b2 hrest b2 (List.mem_cons_self b2 rest)
    have hjoin : sliceJoin data (b :: b2 :: rest) =
        List.take (b2 - b) (List.drop b data) ++ sliceJoin data (b2 :: rest) := by
      simp [sliceJoin, chunksOf, List.zip_cons_cons]
    rw [hjoin, ih b2 hrest, lastOr]
    have hdrop : List.drop b2 data = List.drop (b2 - b) (List.drop b data) := by
      rw [List.drop_drop]
      congr 1
      omega
    rw [hdrop, ← List.take_add]
    congr 1
    omega

theorem sliceJoin_full (data : List Nat) (bs : List Nat)
    (hs : List.Pairwise (· < ·) bs) (h0 : 0 ∈ bs) (hL : data.length ∈ bs)
    (hub : ∀ x ∈ bs, x ≤ data.length) :
    sliceJoin data bs = data := by
  obtain ⟨b, rest, rfl⟩ : ∃ b rest, bs = b :: rest := by
    cases bs with
    | nil => simp at h0
    | cons b rest => exact ⟨b, rest, rfl⟩
  have hple : List.Pairwise (· ≤ ·) (b :: rest) := hs.imp le_of_lt
  have hb0 : b = 0 := by
    rcases List.mem_cons.mp h0 with h | h
    · exact h.symm
    · exact absurd ((List.pairwise_cons.mp hs).1 0 h) (by omega)
  subst hb0
  rw [sliceJoin_cons data rest 0 hple]
  have hlast : lastOr 0 rest = data.length := by
    cases rest with
    | nil =>
      rcases List.mem_cons.mp hL with h | h
      · rw [lastOr]; exact h.symm
      · simp at h
    | cons y t =>
      exact le_antisymm
        (hub _ (List.mem_cons_of_mem 0 (lastOr_mem (y :: t) 0 (List.cons_ne_nil y t))))
        (lastOr_ge (y :: t) 0 hple data.length hL)
  rw [hlast]
  simp

theorem find_chunk_boundaries_eq (data : List Nat) (N : Nat) (split : List Nat) :
    find_chunk_boundaries data N split = sortedDedup ((List.range (N + 1)).map (fun bi =>
      if bi = 0 then 0
      else if bi = N then data.length
      else findBoundary data split (bi * (data.length / N)))) := rfl

theorem find_chunk_boundaries_mem_elim (data split : List Nat) (N : Nat) (x : Nat)
    (hx : x ∈ find_chunk_boundaries data N split) :
    x = 0 ∨ x = data.length
      ∨ ∃ bi, 1 ≤ bi ∧ bi < N ∧ x = findBoundary data split (bi * (data.length / N)) := by
  rw [find_chunk_boundaries_eq, sortedDedup_mem] at hx
  obtain ⟨bi, hbi, hfx⟩ := List.mem_map.mp hx
  by_cases h0 : bi = 0
  · rw [if_pos h0] at hfx; exact Or.inl hfx.symm
  · rw [if_neg h0] at hfx
    by_cases hN : bi = N
    · rw [if_pos hN] at hfx; exact Or.inr (Or.inl hfx.symm)
    · rw [if_neg hN] at hfx
      have hbi2 : bi < N + 1 := List.mem_range.mp hbi
      exact Or.inr (Or.inr ⟨bi, by omega, by omega, hfx.symm⟩)

/-- Claim C6: for a corpus of length L and N at least 1, the boundary list
is strictly increasing (sorted and deduplicated), has at most N + 1
entries, contains 0 and L, every entry other than 0 and L is the start of
an occurrence of the separator in the corpus (so every interior offset is
an occurrence start or equals L), the interior searches only move forward
from the uniform guesses, and the chunks cut by consecutive boundaries
concatenate back to the corpus. -/
theorem find_chunk_boundaries_spec (data split : List Nat) (N : Nat) (hN : 1 ≤ N) :
    List.Pairwise (· < ·) (find_chunk_boundaries data N split)
    ∧ (find_chunk_boundaries data N split).length ≤ N + 1
    ∧ 0 ∈ find_chunk_boundaries data N split
    ∧ data.length ∈ find_chunk_boundaries data N split
    ∧ (∀ x ∈ find_chunk_boundaries data N split, x ≠ data.length →
        x = 0 ∨ split <+: data.drop x)
    ∧ (∀ bi, 1 ≤ bi → bi < N →
        bi * (data.length / N) ≤ findBoundary data split (bi * (data.length / N)))
    ∧ sliceJoin data (find_chunk_boundaries data N split) = data := by
  have hub : ∀ x ∈ find_chunk_boundaries data N split, x ≤ data.length := by
    intro x hx
    rcases find_chunk_boundaries_mem_elim data split N x hx with h | h | ⟨bi, _, _, h⟩
    · omega
    · omega
    · rw [h]; exact findBoundary_le data split _
  have hsorted : List.Pairwise (· < ·) (find_chunk_boundaries data N split) := by
    rw [find_chunk_boundaries_eq]; exact sortedDedup_sorted _
  have h0 : 0 ∈ find_chunk_boundaries data N split := by
    rw [find_chunk_boundaries_eq, sortedDedup_mem]
    refine List.mem_map.mpr ⟨0, List.mem_range.mpr (by omega), by rw [if_pos rfl]⟩
  have hL : data.length ∈ find_chunk_boundaries data N split := by
    rw [find_chunk_boundaries_eq, sortedDedup_mem]
    refine List.mem_map.mpr ⟨N, List.mem_range.mpr (by omega), ?_⟩
    rw [if_neg (by omega), if_pos rfl]
  refine ⟨hsorted, ?_, h0, hL, ?_, ?_, ?_⟩
  · rw [find_chunk_boundaries_eq]
    calc (sortedDedup _).length ≤ _ := sortedDedup_length _
      _ = N + 1 := by rw [List.length_map, List.length_range]
  · intro x hx hxL
    rcases find_chunk_boundaries_mem_elim data split N x hx with h | h | ⟨bi, _, _, h⟩
    · exact Or.inl h
    · exact absurd h hxL
    · rcases findBoundary_occurs data split (bi * (data.length / N)) with hocc | hocc
      · rw [h] at hxL; exact absurd hocc hxL
      · rw [h]; exact Or.inr hocc
  · intro bi hbi1 hbi2
    have hple : bi * (data.length / N) ≤ data.length := by
      have h1 : bi * (data.length / N) ≤ N * (data.length / N) :=
        Nat.mul_le_mul_right _ (le_of_lt hbi2)
      have h2 : N * (data.length / N) ≤ data.length := by
        rw [Nat.mul_comm]
        exact Nat.div_mul_le_self _ _
      omega
    have := findBoundary_ge data split (bi * (data.length / N))
    omega
  · exact sliceJoin_full data _ hsorted h0 hL hub

/-- Witness for C6 at data = [97, 0, 98], two chunks, separator [0]; the
boundary list is [0, 1, 3]. -/
theorem find_chunk_boundaries_spec_witness :
    List.Pairwise (· < ·) (find_chunk_boundaries [97, 0, 98] 2 [0])
    ∧ (find_chunk_boundaries [97, 0, 98] 2 [0]).length ≤ 2 + 1
    ∧ 0 ∈ find_chunk_boundaries [97, 0, 98] 2 [0]
    ∧ ([97, 0, 98] : List Nat).length ∈ find_chunk_boundaries [97, 0, 98] 2 [0]
    ∧ (∀ x ∈ find_chunk_boundaries [97, 0, 98] 2 [0], x ≠ ([97, 0, 98] : List Nat).length →
        x = 0 ∨ [0] <+: ([97, 0, 98] : List Nat).drop x)
    ∧ (∀ bi, 1 ≤ bi → bi < 2 →
        bi * (([97, 0, 98] : List Nat).length / 2)
          ≤ findBoundary [97, 0, 98] [0] (bi * (([97, 0, 98] : List Nat).length / 2)))
    ∧ sliceJoin [97, 0, 98] (find_chunk_boundaries [97, 0, 98] 2 [0]) = [97, 0, 98] :=
  find_chunk_boundaries_spec [97, 0, 98] [0] 2 (by decide)

/-! ## Claim C7: corpus tokenizer -/

theorem findSpecial_cons (b2id : List Nat → Option Nat) (s : List Nat)
    (rest : List (List Nat)) (suffix : List Nat) :
    findSpecial b2id (s :: rest) suffix =
      if s.isPrefixOf suffix then
        match b2id s with
        | some id => some (id, s.length)
        | none => findSpecial b2id rest suffix
      else findSpecial b2id rest suffix := rfl

theorem findSpecial_some (b2id : List Nat → Option Nat) :
    ∀ (specials : List (List Nat)) (suffix : List Nat) (id len : Nat),
      findSpecial b2id specials suffix = some (id, len) →
      ∃ s ∈ specials, s.isPrefixOf suffix = true ∧ b2id s = some id ∧ len = s.length := by
  intro specials
  induction specials with
  | nil => intro suffix id len h; rw [findSpecial] at h; exact absurd h (by simp)
  | cons s rest ih =>
    intro suffix id len h
    rw [findSpecial_cons] at h
    by_cases hp : s.isPrefixOf suffix = true
    · rw [if_pos hp] at h
      cases hb : b2id s with
      | some i =>
        rw [hb] at h
        simp only [Option.some.injEq, Prod.mk.injEq] at h
        exact ⟨s, List.mem_cons_self s rest, hp, by rw [hb, h.1], h.2.symm⟩
      | none =>
        rw [hb] at h
        obtain ⟨s', hs', h1, h2, h3⟩ := ih suffix id len h
        exact ⟨s', List.mem_cons_of_mem s hs', h1, h2, h3⟩
    · rw [if_neg hp] at h
      obtain ⟨s', hs', h1, h2, h3⟩ := ih suffix id len h
      exact ⟨s', List.mem_cons_of_mem s hs', h1, h2, h3⟩

theorem findSpecial_congr (b2id : List Nat → Option Nat) :
    ∀ (specials : List (List Nat)) (x y : List Nat),
      (∀ s ∈ specials, s.isPrefixOf x = s.isPrefixOf y) →
      findSpecial b2id specials x = findSpecial b2id specials y := by
  intro specials
  induction specials with
  | nil => intro x y _; rfl
  | cons s rest ih =>
    intro x y hiff
    rw [findSpecial_cons, findSpecial_cons,
      hiff s (List.mem_cons_self s rest),
      ih x y (fun s' hs' => hiff s' (List.mem_cons_of_mem s hs'))]

theorem findSpecial_of_find?_some (b2id : List Nat → Option Nat) :
    ∀ (specials : List (List Nat)) (suffix s : List Nat),
      (∀ t ∈ specials, (b2id t).isSome = true) →
      specials.find? (fun t => t.isPrefixOf suffix) = some s →
      findSpecial b2id specials suffix = some ((b2id s).getD 0, s.length) := by
  intro specials
  induction specials with
  | nil => intro suffix s _ h; simp at h
  | cons s0 rest ih =>
    intro suffix s hsp h
    rw [findSpecial_cons]
    by_cases hp : s0.isPrefixOf suffix = true
    · simp only [List.find?, hp] at h
      obtain rfl : s0 = s := by injection h
      rw [if_pos hp]
      obtain ⟨id, hid⟩ := Option.isSome_iff_exists.mp (hsp s0 (List.mem_cons_self s0 rest))
      rw [hid]
      simp
    · have hp2 : s0.isPrefixOf suffix = false := by
        cases hb : s0.isPrefixOf suffix
        · rfl
        · exact absurd hb hp
      simp only [List.find?, hp2] at h
      rw [if_neg hp]
      exact ih suffix s (fun t ht => hsp t (List.mem_cons_of_mem s0 ht)) h

theorem findSpecial_of_find?_none (b2id : List Nat → Option Nat) :
    ∀ (specials : List (List Nat)) (suffix : List Nat),
      specials.find? (fun t => t.isPrefixOf suffix) = none →
      findSpecial b2id specials suffix = none := by
  intro specials
  induction specials with
  | nil => intro suffix _; rfl
  | cons s0 rest ih =>
    intro suffix h
    rw [findSpecial_cons]
    by_cases hp : s0.isPrefixOf suffix = true
    · simp only [List.find?, hp] at h
      exact absurd h (by simp)
    · have hp2 : s0.isPrefixOf suffix = false := by
        cases hb : s0.isPrefixOf suffix
        · rfl
        · exact absurd hb hp
      simp only [List.find?, hp2] at h
      rw [if_neg hp]
      exact ih suffix h

theorem chunk2tokenGo_nil (specials : List (List Nat)) (b2id : List Nat → Option Nat) :
    ∀ fuel, chunk2tokenGo specials b2id fuel [] = [] := by
  intro fuel
  cases fuel <;> rfl

theorem chunk2tokenGo_cons (specials : List (List Nat)) (b2id : List Nat → Option Nat)
    (fuel c : Nat) (rest : List Nat) :
    chunk2tokenGo specials b2id (fuel + 1) (c :: rest) =
      match findSpecial b2id specials (c :: rest) with
      | some idlen => idlen.1 :: chunk2tokenGo specials b2id fuel (List.drop idlen.2 (c :: rest))
      | none =>
        match b2id [c] with
        | some id => id :: chunk2tokenGo specials b2id fuel rest
        | none => chunk2tokenGo specials b2id fuel rest := rfl

theorem chunk2tokenSpecGo_nil (specials : List (List Nat)) (b2id : List Nat → Option Nat) :
    ∀ fuel, chunk2tokenSpecGo specials b2id fuel [] = [] := by
  intro fuel
  cases fuel <;> rfl

theorem chunk2tokenSpecGo_cons (specials : List (List Nat)) (b2id : List Nat → Option Nat)
    (fuel c : Nat) (rest : List Nat) :
    chunk2tokenSpecGo specials b2id (fuel + 1) (c :: rest) =
      match specials.find? (fun s => s.isPrefixOf (c :: rest)) with
      | some s =>
        match b2id s with
        | some id => id :: chunk2tokenSpecGo specials b2id fuel (List.drop s.length (c :: rest))
        | none => chunk2tokenSpecGo specials b2id fuel (List.drop s.length (c :: rest))
      | none =>
        match b2id [c] with
        | some id => id :: chunk2tokenSpecGo specials b2id fuel rest
        | none => chunk2tokenSpecGo specials b2id fuel rest := rfl

theorem go_eq_specGo (specials : List (List Nat)) (b2id : List Nat → Option Nat)
    (hne : ∀ s ∈ specials, s ≠ [])
    (hsp : ∀ s ∈ specials, (b2id s).isSome = true) :
    ∀ (n : Nat) (suffix : List Nat) (f1 f2 : Nat),
      suffix.length ≤ n → suffix.length ≤ f1 → suffix.length ≤ f2 →
      chunk2tokenGo specials b2id f1 suffix = chunk2tokenSpecGo specials b2id f2 suffix := by
  intro n
  induction n with
  | zero =>
    intro suffix f1 f2 hn _ _
    have : suffix = [] := List.eq_nil_of_length_eq_zero (Nat.le_zero.mp hn)
    subst this
    rw [chunk2tokenGo_nil, chunk2tokenSpecGo_nil]
  | succ n ih =>
    intro suffix f1 f2 hn hf1 hf2
    match suffix with
    | [] => rw [chunk2tokenGo_nil, chunk2tokenSpecGo_nil]
    | c :: rest =>
      simp only [List.length_cons] at hn hf1 hf2
      match f1, f2 with
      | g1 + 1, g2 + 1 =>
        rw [chunk2tokenGo_cons, chunk2tokenSpecGo_cons]
        cases hfind : specials.find? (fun s => s.isPrefixOf (c :: rest)) with
        | some s =>
          have hs : s ∈ specials := List.mem_of_find?_eq_some hfind
          obtain ⟨id, hid⟩ := Option.isSome_iff_exists.mp (hsp s hs)
          have hfs := findSpecial_of_find?_some b2id specials (c :: rest) s hsp hfind
          rw [hid] at hfs
          simp only [Option.getD_some] at hfs
          rw [hfs]
          show id :: chunk2tokenGo specials b2id g1 (List.drop s.length (c :: rest))
              = match b2id s with
                | some id2 =>
                    id2 :: chunk2tokenSpecGo specials b2id g2 (List.drop s.length (c :: rest))
                | none => chunk2tokenSpecGo specials b2id g2 (List.drop s.length (c :: rest))
          rw [hid]
          show id :: chunk2tokenGo specials b2id g1 (List.drop s.length (c :: rest))
              = id :: chunk2tokenSpecGo specials b2id g2 (List.drop s.length (c :: rest))
          have hlen : 1 ≤ s.length := by
            cases hsl : s with
            | nil => exact absurd hsl (hne s hs)
            | cons a t => simp
          have hd : (List.drop s.length (c :: rest)).length = rest.length + 1 - s.length := by
            simp
          refine congrArg (fun l => id :: l) (ih _ g1 g2 ?_ ?_ ?_) <;> rw [hd] <;> omega
        | none =>
          rw [findSpecial_of_find?_none b2id specials (c :: rest) hfind]
          cases hb : b2id [c] with
          | some id =>
            exact congrArg (fun l => id :: l) (ih rest g1 g2 (by omega) (by omega) (by omega))
          | none => exact ih rest g1 g2 (by omega) (by omega) (by omega)

/-- Claim C7: chunk2token scans the chunk left to right; at each position
the special tokens are tested in the order given and the first whose
encoded bytes start the remaining suffix is taken, its id emitted if its
bytes are in the vocabulary, the cursor advancing by its byte length;
otherwise the id of the single byte at the cursor is emitted and the
cursor advances by one.  This is the equality of chunk2token with the
tokenizer written from the spec wording, for nonempty special tokens (the
source does not terminate on an empty one) all of whose byte encodings are
in the vocabulary (for a prefix-matching special token absent from the
vocabulary the source keeps testing the later special tokens, which the
spec wording does not determine). -/
theorem chunk2token_matches_spec (chunk : List Nat) (specials : List (List Nat))
    (vocab : List (Nat × List Nat))
    (hne : ∀ s ∈ specials, s ≠ [])
    (hsp : ∀ s ∈ specials, (bytesToId vocab s).isSome = true) :
    chunk2token chunk specials vocab = chunk2tokenSpec chunk specials vocab :=
  go_eq_specGo specials (bytesToId vocab) hne hsp chunk.length chunk chunk.length chunk.length
    le_rfl le_rfl le_rfl

/-- Witness for C7: one special token (the bytes of an <s> marker) over the
base vocabulary, on a chunk containing it. -/
theorem chunk2token_matches_spec_witness :
    chunk2token [97, 60, 115, 62, 98] [[60, 115, 62]] (baseVocab [[60, 115, 62]])
      = chunk2tokenSpec [97, 60, 115, 62, 98] [[60, 115, 62]] (baseVocab [[60, 115, 62]]) :=
  chunk2token_matches_spec [97, 60, 115, 62, 98] [[60, 115, 62]] (baseVocab [[60, 115, 62]])
    (by decide) (by decide)

/-! ## Claim C5: chunked versus single-pass tokenization -/

theorem chunk2tokenGo_fuel (specials : List (List Nat)) (b2id : List Nat → Option Nat)
    (hne : ∀ s ∈ specials, s ≠ []) :
    ∀ (n : Nat) (suffix : List Nat) (f1 f2 : Nat),
      suffix.length ≤ n → suffix.length ≤ f1 → suffix.length ≤ f2 →
      chunk2tokenGo specials b2id f1 suffix = chunk2tokenGo specials b2id f2 suffix := by
  intro n
  induction n with
  | zero =>
    intro suffix f1 f2 hn _ _
    have : suffix = [] := List.eq_nil_of_length_eq_zero (Nat.le_zero.mp hn)
    subst this
    rw [chunk2tokenGo_nil, chunk2tokenGo_nil]
  | succ n ih =>
    intro suffix f1 f2 hn hf1 hf2
    match suffix with
    | [] => rw [chunk2tokenGo_nil, chunk2tokenGo_nil]
    | c :: rest =>
      simp only [List.length_cons] at hn hf1 hf2
      match f1, f2 with
      | g1 + 1, g2 + 1 =>
        rw [chunk2tokenGo_cons, chunk2tokenGo_cons]
        cases hfs : findSpecial b2id specials (c :: rest) with
        | some idlen =>
          obtain ⟨id, len⟩ := idlen
          obtain ⟨s, hs, hpre, hbid, hlen⟩ := findSpecial_some b2id specials _ id len hfs
          have hlen1 : 1 ≤ len := by
            subst hlen
            cases hsl : s with
            | nil => exact absurd hsl (hne s hs)
            | cons a t => simp
          have hd : (List.drop len (c :: rest)).length = rest.length + 1 - len := by
            simp
          exact congrArg (fun l => id :: l)
            (ih _ g1 g2 (by rw [hd]; omega) (by rw [hd]; omega) (by rw [hd]; omega))
        | none =>
          cases hb : b2id [c] with
          | some id =>
            exact congrArg (fun l => id :: l) (ih rest g1 g2 (by omega) (by omega) (by omega))
          | none => exact ih rest g1 g2 (by omega) (by omega) (by omega)

theorem tokFull_nil (specials : List (List Nat)) (b2id : List Nat → Option Nat) :
    tokFull specials b2id [] = [] := rfl

theorem tokFull_cons_special (specials : List (List Nat)) (b2id : List Nat → Option Nat)
    (hne : ∀ s ∈ specials, s ≠ []) (c : Nat) (rest : List Nat) (id len : Nat)
    (hfs : findSpecial b2id specials (c :: rest) = some (id, len)) (hlen1 : 1 ≤ len) :
    tokFull specials b2id (c :: rest)
      = id :: tokFull specials b2id (List.drop len (c :: rest)) := by
  show chunk2tokenGo specials b2id (rest.length + 1) (c :: rest)
    = id :: tokFull specials b2id (List.drop len (c :: rest))
  rw [chunk2tokenGo_cons, hfs]
  show id :: chunk2tokenGo specials b2id rest.length (List.drop len (c :: rest)) = _
  refine congrArg (fun l => id :: l) ?_
  have hd : (List.drop len (c :: rest)).length = rest.length + 1 - len := by simp
  exact chunk2tokenGo_fuel specials b2id hne (List.drop len (c :: rest)).length _ _ _
    le_rfl (by rw [hd]; omega) le_rfl

theorem tokFull_cons_byte (specials : List (List Nat)) (b2id : List Nat → Option Nat)
    (c : Nat) (rest : List Nat)
    (hfs : findSpecial b2id specials (c :: rest) = none) :
    tokFull specials b2id (c :: rest) =
      match b2id [c] with
      | some id => id :: tokFull specials b2id rest
      | none => tokFull specials b2id rest := by
  show chunk2tokenGo specials b2id (rest.length + 1) (c :: rest) = _
  rw [chunk2tokenGo_cons, hfs]
  show (match b2id [c] with
        | some id => id :: chunk2tokenGo specials b2id rest.length rest
        | none => chunk2tokenGo specials b2id rest.length rest) = _
  cases b2id [c] <;> rfl

theorem isPre_of_append_le (p u v : List Nat) (h : p.isPrefixOf (u ++ v) = true)
    (hl : p.length ≤ u.length) : p.isPrefixOf u = true := by
  rw [ List.isPrefixOf_iff_prefix] at h ⊢
  have hp := List.prefix_iff_eq_take.mp h
  rw [List.take_append_eq_append_take] at hp
  have h0 : p.length - u.length = 0 := by omega
  rw [h0, List.take_zero, List.append_nil] at hp
  rw [hp]
  exact take_isPre p.length u

theorem isPre_append (p u v : List Nat) (h : p.isPrefixOf u = true) :
    p.isPrefixOf (u ++ v) = true := by
  rw [ List.isPrefixOf_iff_prefix] at h ⊢
  exact h.trans (List.prefix_append u v)

theorem isPre_of_take (p l : List Nat) (n : Nat) (h : p.isPrefixOf (l.take n) = true) :
    p.isPrefixOf l = true := by
  rw [ List.isPrefixOf_iff_prefix] at h ⊢
  exact h.trans (take_isPre n l)

theorem tokFull_append (specials : List (List Nat)) (b2id : List Nat → Option Nat)
    (hne : ∀ s ∈ specials, s ≠ []) :
    ∀ (n : Nat) (u v : List Nat), u.length ≤ n →
      (∀ i, i < u.length → ∀ s ∈ specials, s.isPrefixOf ((u ++ v).drop i) = true →
        i + s.length ≤ u.length) →
      tokFull specials b2id (u ++ v) = tokFull specials b2id u ++ tokFull specials b2id v := by
  intro n
  induction n with
  | zero =>
    intro u v hn _
    have : u = [] := List.eq_nil_of_length_eq_zero (Nat.le_zero.mp hn)
    subst this
    rw [tokFull_nil, List.nil_append, List.nil_append]
  | succ n ih =>
    intro u v hn hcross
    match u with
    | [] => rw [tokFull_nil, List.nil_append, List.nil_append]
    | c :: u' =>
      simp only [List.length_cons] at hn
      have hiff : ∀ s ∈ specials, s.isPrefixOf ((c :: u') ++ v) = s.isPrefixOf (c :: u') := by
        intro s hs
        cases hb : s.isPrefixOf ((c :: u') ++ v) with
        | true =>
          have hle := hcross 0 (by simp) s hs (by rw [List.drop_zero]; exact hb)
          have := isPre_of_append_le s (c :: u') v hb (by simpa using hle)
          rw [this]
        | false =>
          cases hb2 : s.isPrefixOf (c :: u') with
          | false => rfl
          | true =>
            rw [← hb, isPre_append s (c :: u') v hb2]
      have hfiff := findSpecial_congr b2id specials ((c :: u') ++ v) (c :: u') hiff
      cases hfs : findSpecial b2id specials ((c :: u') ++ v) with
      | some idlen =>
        obtain ⟨id, len⟩ := idlen
        have hfsu : findSpecial b2id specials (c :: u') = some (id, len) := by
          rw [← hfiff, hfs]
        obtain ⟨s, hs, hpre, hbid, hlen⟩ := findSpecial_some b2id specials _ id len hfs
        have hlen1 : 1 ≤ len := by
          subst hlen
          cases hsl : s with
          | nil => exact absurd hsl (hne s hs)
          | cons a t => simp
        have hlenle : len ≤ u'.length + 1 := by
          have := hcross 0 (by simp) s hs (by rw [List.drop_zero]; exact hpre)
          simp only [List.length_cons] at this
          omega
        show tokFull specials b2id (c :: (u' ++ v))
          = tokFull specials b2id (c :: u') ++ tokFull specials b2id v
        rw [tokFull_cons_special specials b2id hne c (u' ++ v) id len hfs hlen1,
          tokFull_cons_special specials b2id hne c u' id len hfsu hlen1,
          List.cons_append]
        refine congrArg (fun l => id :: l) ?_
        have hdrop : List.drop len (c :: (u' ++ v)) = List.drop len (c :: u') ++ v := by
          show List.drop len ((c :: u') ++ v) = List.drop len (c :: u') ++ v
          rw [List.drop_append_eq_append_drop]
          have h0 : len - (c :: u').length = 0 := by
            simp only [List.length_cons]; omega
          rw [h0, List.drop_zero]
        rw [hdrop]
        apply ih (List.drop len (c :: u')) v
        · simp only [List.length_drop, List.length_cons]
          omega
        · intro i hi s' hs' hpre'
          simp only [List.length_drop, List.length_cons] at hi ⊢
          have htrans : (List.drop len (c :: u') ++ v).drop i
              = ((c :: u') ++ v).drop (len + i) := by
            rw [← hdrop]
            show (List.drop len ((c :: u') ++ v)).drop i = _
            rw [List.drop_drop]
          rw [htrans] at hpre'
          have := hcross (len + i) (by simp only [List.length_cons]; omega) s' hs' hpre'
          simp only [List.length_cons] at this
          omega
      | none =>
        have hfsu : findSpecial b2id specials (c :: u') = none := by
          rw [← hfiff, hfs]
        show tokFull specials b2id (c :: (u' ++ v))
          = tokFull specials b2id (c :: u') ++ tokFull specials b2id v
        rw [tokFull_cons_byte specials b2id c (u' ++ v) hfs,
          tokFull_cons_byte specials b2id c u' hfsu]
        have hrec : tokFull specials b2id (u' ++ v)
            = tokFull specials b2id u' ++ tokFull specials b2id v := by
          apply ih u' v (by omega)
          intro i hi s hs hpre
          have := hcross (i + 1) (by simp only [List.length_cons]; omega) s hs hpre
          simp only [List.length_cons] at this
          omega
        cases hb : b2id [c] with
        | some id => rw [List.cons_append, hrec]
        | none => rw [hrec]

theorem boundaries_shape (data split : List Nat) (N : Nat) (hN : 1 ≤ N) :
    ∃ rest, find_chunk_boundaries data N split = 0 :: rest
      ∧ List.Pairwise (· < ·) (0 :: rest)
      ∧ (∀ x ∈ (0 :: rest : List Nat), x ≤ data.length)
      ∧ lastOr 0 rest = data.length := by
  have hub : ∀ x ∈ find_chunk_boundaries data N split, x ≤ data.length := by
    intro x hx
    rcases find_chunk_boundaries_mem_elim data split N x hx with h | h | ⟨bi, _, _, h⟩
    · omega
    · omega
    · rw [h]; exact findBoundary_le data split _
  have hsorted : List.Pairwise (· < ·) (find_chunk_boundaries data N split) := by
    rw [find_chunk_boundaries_eq]; exact sortedDedup_sorted _
  have h0 : 0 ∈ find_chunk_boundaries data N split := by
    rw [find_chunk_boundaries_eq, sortedDedup_mem]
    exact List.mem_map.mpr ⟨0, List.mem_range.mpr (by omega), by rw [if_pos rfl]⟩
  have hL : data.length ∈ find_chunk_boundaries data N split := by
    rw [find_chunk_boundaries_eq, sortedDedup_mem]
    refine List.mem_map.mpr ⟨N, List.mem_range.mpr (by omega), ?_⟩
    rw [if_neg (by omega), if_pos rfl]
  obtain ⟨b, rest, hbs⟩ : ∃ b rest, find_chunk_boundaries data N split = b :: rest := by
    cases hc : find_chunk_boundaries data N split with
    | nil => rw [hc] at h0; simp at h0
    | cons b rest => exact ⟨b, rest, rfl⟩
  rw [hbs] at hsorted h0 hL hub
  have hb0 : b = 0 := by
    rcases List.mem_cons.mp h0 with h | h
    · exact h.symm
    · exact absurd ((List.pairwise_cons.mp hsorted).1 0 h) (by omega)
  subst hb0
  refine ⟨rest, hbs, hsorted, hub, ?_⟩
  cases rest with
  | nil =>
    rcases List.mem_cons.mp hL with h | h
    · rw [lastOr]; exact h.symm
    · simp at h
  | cons y t =>
    exact le_antisymm
      (hub _ (List.mem_cons_of_mem 0 (lastOr_mem (y :: t) 0 (List.cons_ne_nil y t))))
      (lastOr_ge (y :: t) 0 (hsorted.imp le_of_lt) data.length hL)

theorem tokFull_chunks (data : List Nat) (specials : List (List Nat))
    (b2id : List Nat → Option Nat) (hne : ∀ s ∈ specials, s ≠ []) :
    ∀ (bs : List Nat) (b : Nat),
      List.Pairwise (· ≤ ·) (b :: bs) →
      (∀ x ∈ b :: bs, x ≤ data.length) →
      (∀ b2 ∈ bs, ∀ i, i < b2 → ∀ s ∈ specials,
        s.isPrefixOf (data.drop i) = true → i + s.length ≤ b2) →
      ((chunksOf data (b :: bs)).map (tokFull specials b2id)).flatten
        = tokFull specials b2id (List.take (lastOr b bs - b) (List.drop b data)) := by
  intro bs
  induction bs with
  | nil =>
    intro b _ _ _
    rw [lastOr]
    simp [chunksOf, tokFull_nil]
  | cons b2 rest ih =>
    intro b hp hub hns
    obtain ⟨hd, htail⟩ := List.pairwise_cons.mp hp
    have hb2 : b ≤ b2 := hd b2 (List.mem_cons_self b2 rest)
    have hblast : b2 ≤ lastOr b2 rest :=
      lastOr_ge rest b2 htail b2 (List.mem_cons_self b2 rest)
    have hb2L : b2 ≤ data.length := hub b2 (List.mem_cons_of_mem b (List.mem_cons_self b2 rest))
    have hflat : ((chunksOf data (b :: b2 :: rest)).map (tokFull specials b2id)).flatten
        = tokFull specials b2id (List.take (b2 - b) (List.drop b data))
          ++ ((chunksOf data (b2 :: rest)).map (tokFull specials b2id)).flatten := by
      simp [chunksOf, List.zip_cons_cons]
    rw [hflat,
      ih b2 htail (fun x hx => hub x (List.mem_cons_of_mem b hx))
        (fun x hx => hns x (List.mem_cons_of_mem b2 hx)), lastOr]
    have hsplit : List.take (lastOr b2 rest - b) (List.drop b data)
        = List.take (b2 - b) (List.drop b data)
          ++ List.take (lastOr b2 rest - b2) (List.drop b2 data) := by
      have hdd : List.drop b2 data = List.drop (b2 - b) (List.drop b data) := by
        rw [List.drop_drop]
        congr 1
        omega
      rw [hdd, ← List.take_add]
      congr 1
      omega
    rw [hsplit]
    have hulen : (List.take (b2 - b) (List.drop b data)).length = b2 - b := by
      simp only [List.length_take, List.length_drop]
      omega
    refine (tokFull_append specials b2id hne (b2 - b)
      (List.take (b2 - b) (List.drop b data))
      (List.take (lastOr b2 rest - b2) (List.drop b2 data))
      (le_of_eq hulen) ?_).symm
    intro i hi s hs hpre
    rw [hulen] at hi
    rw [← hsplit] at hpre
    have hpre2 : s.isPrefixOf (data.drop (b + i)) = true := by
      have heq : (List.take (lastOr b2 rest - b) (List.drop b data)).drop i
          = List.take (lastOr b2 rest - b - i) (List.drop (b + i) data) := by
        rw [List.drop_take, List.drop_drop]
      rw [heq] at hpre
      exact isPre_of_take s _ _ hpre
    have := hns b2 (List.mem_cons_self b2 rest) (b + i) (by omega) s hs hpre2
    rw [hulen]
    omega

set_option maxRecDepth 40000 in
/-- Claim C5 counterexample: with the single special token aa over the
corpus aaa and target vocabulary 258, the computed chunk boundary 1 is a
genuine occurrence start of the separator, yet it overlaps the occurrence
starting at 0; the single-pass run tokenizes to [256, 97] and merges
the byte pair (aa, a) while the two-chunk run tokenizes to [97, 256] and
merges (a, aa), so the returned merge lists differ. -/
theorem parallel_transparent_cex :
    BPETokenizerTraining [97, 97, 97] 258 [[97, 97]] 2
      ≠ BPETokenizerTraining [97, 97, 97] 258 [[97, 97]] 1 := by
  decide

/-- Claim C5 (amended): training with parallelism degree np and with
degree 1 return the identical vocabulary and merge list provided every
special token is nonempty and no special-token occurrence in the corpus
crosses a computed chunk boundary (each occurrence starting before a
boundary ends at or before it).  Without the proviso the chunk cut can
split or hide an occurrence that the single pass consumes atomically, and
the outputs differ, as the counterexample shows. -/
theorem parallel_transparent (data : List Nat) (vs np : Nat) (s0 : List Nat)
    (sRest : List (List Nat))
    (hne : ∀ s ∈ s0 :: sRest, s ≠ [])
    (hns : ∀ b ∈ find_chunk_boundaries data np s0, ∀ i, i < b → ∀ s ∈ s0 :: sRest,
      s.isPrefixOf (data.drop i) = true → i + s.length ≤ b) :
    BPETokenizerTraining data vs (s0 :: sRest) np
      = BPETokenizerTraining data vs (s0 :: sRest) 1 := by
  unfold BPETokenizerTraining trainFinal
  suffices h : trainTokens data (s0 :: sRest) np = trainTokens data (s0 :: sRest) 1 by
    rw [h]
  unfold trainTokens
  by_cases hnp : 1 < np
  · rw [if_pos hnp, if_neg (by omega : ¬ (1 : Nat) < 1)]
    show some (((chunksOf data (find_chunk_boundaries data np s0)).map
        (fun ch => chunk2token ch (s0 :: sRest) (baseVocab (s0 :: sRest)))).flatten) = _
    obtain ⟨rest, hbs, hsort, hub, hlast⟩ := boundaries_shape data s0 np (by omega)
    rw [hbs]
    have hmapeq : (chunksOf data (0 :: rest)).map
          (fun ch => chunk2token ch (s0 :: sRest) (baseVocab (s0 :: sRest)))
        = (chunksOf data (0 :: rest)).map
          (tokFull (s0 :: sRest) (bytesToId (baseVocab (s0 :: sRest)))) := rfl
    rw [hmapeq]
    have hchunks := tokFull_chunks data (s0 :: sRest)
      (bytesToId (baseVocab (s0 :: sRest))) hne rest 0
      (hsort.imp le_of_lt) hub
      (fun b2 hb2 => hns b2 (hbs ▸ List.mem_cons_of_mem 0 hb2))
    rw [hchunks, hlast]
    have hdata : List.take (data.length - 0) (List.drop 0 data) = data := by
      simp
    rw [hdata]
    rfl
  · rw [if_neg hnp, if_neg (by omega : ¬ (1 : Nat) < 1)]

/-- Witness for the amended C5: corpus [97, 0, 98] with the single special
token [0], two chunks against one; the boundary list is [0, 1, 3] and the
only separator occurrence, at offset 1, ends at 2, inside its chunk. -/
theorem parallel_transparent_witness :
    BPETokenizerTraining [97, 0, 98] 300 [[0]] 2
      = BPETokenizerTraining [97, 0, 98] 300 [[0]] 1 :=
  parallel_transparent [97, 0, 98] 300 2 [0] [] (by decide) (by decide)

/-! ## Driver lemmas for Claims C2, C3, C4, C9 -/

theorem specialEntries_length : ∀ (S : List (List Nat)) (base : Nat),
    (specialEntries base S).length = S.length := by
  intro S
  induction S with
  | nil => intro base; rfl
  | cons s rest ih => intro base; simp [specialEntries, ih]

theorem specialEntries_key_range : ∀ (S : List (List Nat)) (base : Nat),
    ∀ e ∈ specialEntries base S, base ≤ e.1 ∧ e.1 < base + S.length := by
  intro S
  induction S with
  | nil => intro base e he; simp [specialEntries] at he
  | cons s rest ih =>
    intro base e he
    rw [specialEntries] at he
    rcases List.mem_cons.mp he with he | he
    · subst he; simp
    · have := ih (base + 1) e he
      simp only [List.length_cons]
      omega

theorem mergeEntries_length : ∀ (m : List (List Nat × List Nat)) (base : Nat),
    (mergeEntries base m).length = m.length := by
  intro m
  induction m with
  | nil => intro base; rfl
  | cons p rest ih => intro base; simp [mergeEntries, ih]

theorem mergeEntries_key_range : ∀ (m : List (List Nat × List Nat)) (base : Nat),
    ∀ e ∈ mergeEntries base m, base ≤ e.1 ∧ e.1 < base + m.length := by
  intro m
  induction m with
  | nil => intro base e he; simp [mergeEntries] at he
  | cons p rest ih =>
    intro base e he
    rw [mergeEntries] at he
    rcases List.mem_cons.mp he with he | he
    · subst he; simp
    · have := ih (base + 1) e he
      simp only [List.length_cons]
      omega

theorem mergeEntries_append : ∀ (m : List (List Nat × List Nat)) (base : Nat)
    (p : List Nat × List Nat),
    mergeEntries base (m ++ [p]) = mergeEntries base m ++ [(base + m.length, p.1 ++ p.2)] := by
  intro m
  induction m with
  | nil => intro base p; simp [mergeEntries]
  | cons q rest ih =>
    intro base p
    rw [List.cons_append, mergeEntries, mergeEntries, ih (base + 1) p, List.cons_append]
    have : base + 1 + rest.length = base + (q :: rest).length := by
      simp only [List.length_cons]; omega
    rw [this]

theorem baseVocab_length (specials : List (List Nat)) :
    (baseVocab specials).length = 256 + specials.length := by
  rw [baseVocab, List.length_append, List.length_map, List.length_range,
    specialEntries_length]

theorem baseVocab_key_range (specials : List (List Nat)) :
    ∀ e ∈ baseVocab specials, e.1 < 256 + specials.length := by
  intro e he
  rw [baseVocab] at he
  rcases List.mem_append.mp he with he | he
  · obtain ⟨i, hi, hei⟩ := List.mem_map.mp he
    rw [← hei]
    have := List.mem_range.mp hi
    simp only []
    omega
  · exact (specialEntries_key_range specials 256 e he).2

theorem findKey_range_map : ∀ (n k : Nat) (m : List (Nat × List Nat)),
    List.find? (fun e => e.1 == k) (((List.range n).map (fun i => (i, [i]))) ++ m)
      = if k < n then some (k, [k]) else List.find? (fun e => e.1 == k) m := by
  intro n
  induction n with
  | zero => intro k m; simp
  | succ n ih =>
    intro k m
    rw [List.range_succ, List.map_append, List.append_assoc]
    rw [ih k _]
    by_cases hk : k < n
    · rw [if_pos hk, if_pos (by omega)]
    · rw [if_neg hk]
      by_cases hk2 : k = n
      · subst hk2
        rw [if_pos (by omega)]
        simp [List.find?]
      · rw [if_neg (by omega)]
        have : ((n, ([n] : List Nat)).1 == k) = false := by
          simp only [beq_eq_false_iff_ne, ne_eq]
          exact fun he => hk2 he.symm
        simp only [List.map_cons, List.map_nil, List.cons_append, List.nil_append,
          List.find?, this]
        rfl

theorem findKey_specialEntries : ∀ (S : List (List Nat)) (base j : Nat),
    List.find? (fun e => e.1 == base + j) (specialEntries base S)
      = (S.get? j).map (fun s => (base + j, s)) := by
  intro S
  induction S with
  | nil => intro base j; simp [specialEntries]
  | cons s rest ih =>
    intro base j
    rw [specialEntries]
    cases j with
    | zero =>
      have hb : (((base, s) : Nat × List Nat).1 == base + 0) = true := by simp
      simp only [List.find?, hb, List.get?]
      rfl
    | succ j =>
      have hb : (((base, s) : Nat × List Nat).1 == base + (j + 1)) = false := by
        simp only [beq_eq_false_iff_ne, ne_eq]
        omega
      simp only [List.find?, hb, List.get?]
      have harg : base + (j + 1) = (base + 1) + j := by omega
      rw [harg, ih (base + 1) j]

theorem findKey_specialEntries_none : ∀ (S : List (List Nat)) (base k : Nat),
    (k < base ∨ base + S.length ≤ k) →
    List.find? (fun e => e.1 == k) (specialEntries base S) = none := by
  intro S
  induction S with
  | nil => intro base k _; rfl
  | cons s rest ih =>
    intro base k hk
    rw [specialEntries]
    have hb : (((base, s) : Nat × List Nat).1 == k) = false := by
      simp only [beq_eq_false_iff_ne, ne_eq]
      simp only [List.length_cons] at hk
      omega
    simp only [List.find?, hb]
    refine ih (base + 1) k ?_
    simp only [List.length_cons] at hk
    omega

theorem findKey_mergeEntries : ∀ (m : List (List Nat × List Nat)) (base j : Nat),
    List.find? (fun e => e.1 == base + j) (mergeEntries base m)
      = (m.get? j).map (fun p => (base + j, p.1 ++ p.2)) := by
  intro m
  induction m with
  | nil => intro base j; simp [mergeEntries]
  | cons p rest ih =>
    intro base j
    rw [mergeEntries]
    cases j with
    | zero =>
      have hb : (((base, p.1 ++ p.2) : Nat × List Nat).1 == base + 0) = true := by simp
      simp only [List.find?, hb, List.get?]
      rfl
    | succ j =>
      have hb : (((base, p.1 ++ p.2) : Nat × List Nat).1 == base + (j + 1)) = false := by
        simp only [beq_eq_false_iff_ne, ne_eq]
        omega
      simp only [List.find?, hb, List.get?]
      have harg : base + (j + 1) = (base + 1) + j := by omega
      rw [harg, ih (base + 1) j]

theorem dictGet_inv_byte (specials : List (List Nat)) (st : TrainState)
    (hinv : TrainInv specials st) (i : Nat) (hi : i < 256) :
    dictGet st.vocab i = some [i] := by
  rw [dictGet, hinv.1, baseVocab, List.append_assoc, findKey_range_map, if_pos hi]
  rfl

theorem dictGet_inv_special (specials : List (List Nat)) (st : TrainState)
    (hinv : TrainInv specials st) (j : Nat) (hj : j < specials.length) :
    dictGet st.vocab (256 + j) = specials.get? j := by
  rw [dictGet, hinv.1, baseVocab, List.append_assoc, findKey_range_map,
    if_neg (by omega), List.find?_append, findKey_specialEntries]
  cases hg : specials.get? j with
  | none =>
    have := List.get?_eq_none.mp hg
    omega
  | some sv => simp

theorem dictGet_inv_merge (specials : List (List Nat)) (st : TrainState)
    (hinv : TrainInv specials st) (j : Nat) (hj : j < st.merge.length) :
    dictGet st.vocab (256 + specials.length + j)
      = (st.merge.get? j).map (fun p => p.1 ++ p.2) := by
  rw [dictGet, hinv.1, baseVocab, List.append_assoc, findKey_range_map,
    if_neg (by omega), List.find?_append,
    findKey_specialEntries_none specials 256 _ (Or.inr (by omega)),
    Option.none_or, findKey_mergeEntries]
  cases hg : st.merge.get? j with
  | none =>
    have := List.get?_eq_none.mp hg
    omega
  | some p => simp

theorem dictGet_inv_isSome (specials : List (List Nat)) (st : TrainState)
    (hinv : TrainInv specials st) (k : Nat) (hk : k < st.nowSize) :
    (dictGet st.vocab k).isSome = true := by
  have hns := hinv.2.1
  by_cases h1 : k < 256
  · rw [dictGet_inv_byte specials st hinv k h1]; rfl
  · by_cases h2 : k < 256 + specials.length
    · have hk2 : k = 256 + (k - 256) := by omega
      rw [hk2, dictGet_inv_special specials st hinv _ (by omega)]
      cases hg : specials.get? (k - 256) with
      | none =>
        have := List.get?_eq_none.mp hg
        omega
      | some sv => rfl
    · have hk2 : k = 256 + specials.length + (k - (256 + specials.length)) := by omega
      rw [hk2, dictGet_inv_merge specials st hinv _ (by omega)]
      cases hg : st.merge.get? (k - (256 + specials.length)) with
      | none =>
        have := List.get?_eq_none.mp hg
        omega
      | some p => rfl

theorem bytesToId_lt (specials : List (List Nat)) (b : List Nat) (id : Nat)
    (h : bytesToId (baseVocab specials) b = some id) : id < 256 + specials.length := by
  rw [bytesToId] at h
  cases hf : (baseVocab specials).reverse.find? (fun e => e.2 == b) with
  | none => rw [hf] at h; simp at h
  | some e =>
    rw [hf] at h
    simp only [Option.map_some', Option.some.injEq] at h
    have he : e ∈ (baseVocab specials).reverse := List.mem_of_find?_eq_some hf
    rw [List.mem_reverse] at he
    have := baseVocab_key_range specials e he
    omega

theorem chunk2tokenGo_zero (specials : List (List Nat)) (b2id : List Nat → Option Nat)
    (suffix : List Nat) : chunk2tokenGo specials b2id 0 suffix = [] := rfl

theorem chunk2tokenGo_emits (specials : List (List Nat)) (b2id : List Nat → Option Nat) :
    ∀ (fuel : Nat) (suffix : List Nat) (t : Nat),
      t ∈ chunk2tokenGo specials b2id fuel suffix → ∃ b, b2id b = some t := by
  intro fuel
  induction fuel with
  | zero =>
    intro suffix t ht
    rw [chunk2tokenGo_zero] at ht
    simp at ht
  | succ fuel ih =>
    intro suffix t ht
    cases suffix with
    | nil => rw [chunk2tokenGo_nil] at ht; simp at ht
    | cons c rest =>
      rw [chunk2tokenGo_cons] at ht
      cases hfs : findSpecial b2id specials (c :: rest) with
      | some idlen =>
        rw [hfs] at ht
        rcases List.mem_cons.mp ht with ht | ht
        · obtain ⟨s, _, _, hbid, _⟩ :=
            findSpecial_some b2id specials (c :: rest) idlen.1 idlen.2 hfs
          exact ⟨s, by rw [hbid, ht]⟩
        · exact ih _ t ht
      | none =>
        rw [hfs] at ht
        cases hb : b2id [c] with
        | some id =>
          rw [hb] at ht
          rcases List.mem_cons.mp ht with ht | ht
          · exact ⟨[c], by rw [hb, ht]⟩
          · exact ih rest t ht
        | none =>
          rw [hb] at ht
          exact ih rest t ht

theorem trainTokens_bound (data : List Nat) (specials : List (List Nat)) (np : Nat)
    (tks : List Nat) (h : trainTokens data specials np = some tks) :
    ∀ t ∈ tks, t < 256 + specials.length := by
  intro t ht
  unfold trainTokens at h
  by_cases hnp : 1 < np
  · rw [if_pos hnp] at h
    cases specials with
    | nil => exact absurd h (by simp)
    | cons s0 sRest =>
      have h2 : (((chunksOf data (find_chunk_boundaries data np s0)).map
          (fun ch => chunk2token ch (s0 :: sRest) (baseVocab (s0 :: sRest)))).flatten) = tks := by
        injection h
      rw [← h2] at ht
      obtain ⟨l, hl, htl⟩ := List.mem_flatten.mp ht
      obtain ⟨ch, _, hcheq⟩ := List.mem_map.mp hl
      rw [← hcheq] at htl
      obtain ⟨b, hb⟩ := chunk2tokenGo_emits _ _ _ _ t htl
      exact bytesToId_lt _ b t hb
  · rw [if_neg hnp] at h
    injection h with h
    rw [← h] at ht
    obtain ⟨b, hb⟩ := chunk2tokenGo_emits _ _ _ _ t ht
    exact bytesToId_lt _ b t hb

theorem merge_pair_mem (p : Nat × Nat) (nid : Nat) :
    ∀ l : List Nat, ∀ t ∈ merge_pair_in_tokens l p nid, t = nid ∨ t ∈ l := by
  refine twoStepInduction ?_ ?_ ?_
  · intro t ht; simp [merge_pair_in_tokens] at ht
  · intro x t ht
    simp only [merge_pair_in_tokens] at ht
    exact Or.inr ht
  · intro x y rest ih1 ih2 t ht
    rw [merge_pair_cons2] at ht
    by_cases h : x = p.1 ∧ y = p.2
    · rw [if_pos h] at ht
      rcases List.mem_cons.mp ht with ht | ht
      · exact Or.inl ht
      · rcases ih1 t ht with ht | ht
        · exact Or.inl ht
        · exact Or.inr (List.mem_cons_of_mem x (List.mem_cons_of_mem y ht))
    · rw [if_neg h] at ht
      rcases List.mem_cons.mp ht with ht | ht
      · exact Or.inr (ht ▸ List.mem_cons_self x (y :: rest))
      · rcases ih2 t ht with ht | ht
        · exact Or.inl ht
        · exact Or.inr (List.mem_cons_of_mem x ht)

theorem bpeStep_eq_none (st : TrainState) :
    bpeStep st = none ↔ count_pairs st.tokens = [] := by
  constructor
  · intro h
    by_contra hne
    have hne2 : (count_pairs st.tokens).isEmpty = false := by
      cases hc : count_pairs st.tokens with
      | nil => exact absurd hc hne
      | cons e rest => rfl
    simp [bpeStep, hne2] at h
  · intro h
    unfold bpeStep
    rw [h]
    rfl

theorem bpeStep_basic (st st2 : TrainState) (h : bpeStep st = some st2) :
    st2.merge = st.merge ++ [(((dictGet st.vocab (maxPair (count_pairs st.tokens)).1).getD []),
        ((dictGet st.vocab (maxPair (count_pairs st.tokens)).2).getD []))]
    ∧ st2.tokens = merge_pair_in_tokens st.tokens (maxPair (count_pairs st.tokens)) st.nowSize
    ∧ st2.nowSize = st.nowSize + 1
    ∧ st2.vocab = dictSet st.vocab st.nowSize
        (((dictGet st.vocab (maxPair (count_pairs st.tokens)).1).getD [])
          ++ ((dictGet st.vocab (maxPair (count_pairs st.tokens)).2).getD []))
    ∧ count_pairs st.tokens ≠ [] := by
  by_cases hc : (count_pairs st.tokens).isEmpty = true
  · simp [bpeStep, hc] at h
  · have hc2 : (count_pairs st.tokens).isEmpty = false := by
      cases hb : (count_pairs st.tokens).isEmpty
      · rfl
      · exact absurd hb hc
    simp only [bpeStep, hc2, Bool.false_eq_true, if_false, Option.some.injEq] at h
    subst h
    refine ⟨rfl, rfl, rfl, rfl, ?_⟩
    intro hnil
    rw [hnil] at hc2
    simp at hc2

theorem dictSet_append (m : List (Nat × List Nat)) (k : Nat) (v : List Nat)
    (h : ∀ e ∈ m, e.1 ≠ k) : dictSet m k v = m ++ [(k, v)] := by
  rw [dictSet, if_neg]
  intro hany
  obtain ⟨e, he, hek⟩ := List.any_eq_true.mp hany
  exact h e he (by simpa using hek)

theorem bpeStep_inv (specials : List (List Nat)) (st st2 : TrainState)
    (hinv : TrainInv specials st) (h : bpeStep st = some st2) :
    TrainInv specials st2
    ∧ st2.vocab = st.vocab ++ [(st.nowSize,
        ((dictGet st.vocab (maxPair (count_pairs st.tokens)).1).getD [])
          ++ ((dictGet st.vocab (maxPair (count_pairs st.tokens)).2).getD []))] := by
  obtain ⟨hm, htok, hns, hv, hpc⟩ := bpeStep_basic st st2 h
  have hkeys : ∀ e ∈ st.vocab, e.1 ≠ st.nowSize := by
    intro e he
    rw [hinv.1] at he
    have hsize := hinv.2.1
    rcases List.mem_append.mp he with he | he
    · have := baseVocab_key_range specials e he
      omega
    · have := mergeEntries_key_range _ _ e he
      omega
  have hvap : st2.vocab = st.vocab ++ [(st.nowSize,
      ((dictGet st.vocab (maxPair (count_pairs st.tokens)).1).getD [])
        ++ ((dictGet st.vocab (maxPair (count_pairs st.tokens)).2).getD []))] := by
    rw [hv, dictSet_append _ _ _ hkeys]
  refine ⟨⟨?_, ?_, ?_⟩, hvap⟩
  · rw [hvap, hinv.1, hm, mergeEntries_append, ← List.append_assoc]
    have : 256 + specials.length + st.merge.length = st.nowSize := hinv.2.1.symm
    rw [this, ← hinv.1]
  · rw [hns, hm, hinv.2.1, List.length_append]
    simp only [List.length_cons, List.length_nil]
    omega
  · intro t ht
    rw [htok] at ht
    rw [hns]
    rcases merge_pair_mem _ _ _ t ht with ht | ht
    · omega
    · have := hinv.2.2 t ht
      omega

theorem runSteps_zero (target : Nat) (st : TrainState) : runSteps target 0 st = st := rfl

theorem runSteps_succ_eq (target fuel : Nat) (st : TrainState) :
    runSteps target (fuel + 1) st =
      if st.nowSize < target then
        match bpeStep st with
        | some st2 => runSteps target fuel st2
        | none => st
      else st := rfl

theorem runSteps_noop (target fuel : Nat) (st : TrainState) (h : ¬ st.nowSize < target) :
    runSteps target fuel st = st := by
  cases fuel with
  | zero => rfl
  | succ fuel => rw [runSteps_succ_eq, if_neg h]

theorem runSteps_stop_none (target fuel : Nat) (st : TrainState) (h : bpeStep st = none) :
    runSteps target fuel st = st := by
  cases fuel with
  | zero => rfl
  | succ fuel =>
    rw [runSteps_succ_eq, h]
    by_cases hc : st.nowSize < target
    · rw [if_pos hc]
    · rw [if_neg hc]

theorem runSteps_succ (target : Nat) :
    ∀ (k : Nat) (st : TrainState),
      runSteps target (k + 1) st = loopOnce target (runSteps target k st) := by
  intro k
  induction k with
  | zero => intro st; rfl
  | succ k ih =>
    intro st
    rw [runSteps_succ_eq]
    by_cases hc : st.nowSize < target
    · rw [if_pos hc]
      cases hs : bpeStep st with
      | some st2 =>
        have hr : runSteps target (k + 1) st = runSteps target k st2 := by
          rw [runSteps_succ_eq, if_pos hc, hs]
        rw [hr]
        exact ih st2
      | none =>
        have hr : runSteps target (k + 1) st = st := by
          rw [runSteps_succ_eq, if_pos hc, hs]
        rw [hr]
        unfold loopOnce
        rw [if_pos hc, hs]
    · rw [if_neg hc]
      have hr : runSteps target (k + 1) st = st := runSteps_noop _ _ _ hc
      rw [hr]
      unfold loopOnce
      rw [if_neg hc]

theorem runSteps_inv (specials : List (List Nat)) (target : Nat) :
    ∀ (fuel : Nat) (st : TrainState), TrainInv specials st →
      TrainInv specials (runSteps target fuel st) := by
  intro fuel
  induction fuel with
  | zero => intro st h; exact h
  | succ fuel ih =>
    intro st h
    rw [runSteps_succ_eq]
    by_cases hc : st.nowSize < target
    · rw [if_pos hc]
      cases hs : bpeStep st with
      | some st2 => exact ih st2 (bpeStep_inv specials st st2 h hs).1
      | none => exact h
    · rw [if_neg hc]; exact h

theorem runSteps_counts (target : Nat) :
    ∀ (fuel : Nat) (st : TrainState),
      (runSteps target fuel st).merge.length + st.nowSize
          = st.merge.length + (runSteps target fuel st).nowSize
        ∧ st.nowSize ≤ (runSteps target fuel st).nowSize := by
  intro fuel
  induction fuel with
  | zero => intro st; exact ⟨rfl, le_rfl⟩
  | succ fuel ih =>
    intro st
    rw [runSteps_succ_eq]
    by_cases hc : st.nowSize < target
    · rw [if_pos hc]
      cases hs : bpeStep st with
      | some st2 =>
        obtain ⟨hm, _, hns, _, _⟩ := bpeStep_basic st st2 hs
        obtain ⟨ih1, ih2⟩ := ih st2
        have hml : st2.merge.length = st.merge.length + 1 := by
          rw [hm, List.length_append]
          simp
        show (runSteps target fuel st2).merge.length + st.nowSize
            = st.merge.length + (runSteps target fuel st2).nowSize
          ∧ st.nowSize ≤ (runSteps target fuel st2).nowSize
        omega
      | none => exact ⟨rfl, le_rfl⟩
    · rw [if_neg hc]; exact ⟨rfl, le_rfl⟩

theorem runSteps_upper (target : Nat) :
    ∀ (fuel : Nat) (st : TrainState),
      (runSteps target fuel st).nowSize ≤ max st.nowSize target := by
  intro fuel
  induction fuel with
  | zero => intro st; exact le_max_left _ _
  | succ fuel ih =>
    intro st
    rw [runSteps_succ_eq]
    by_cases hc : st.nowSize < target
    · rw [if_pos hc]
      cases hs : bpeStep st with
      | some st2 =>
        obtain ⟨_, _, hns, _, _⟩ := bpeStep_basic st st2 hs
        have := ih st2
        show (runSteps target fuel st2).nowSize ≤ max st.nowSize target
        omega
      | none => exact le_max_left _ _
    · rw [if_neg hc]; exact le_max_left _ _

theorem runSteps_stop (target : Nat) :
    ∀ (fuel : Nat) (st : TrainState), target - st.nowSize ≤ fuel →
      target ≤ (runSteps target fuel st).nowSize
        ∨ count_pairs (runSteps target fuel st).tokens = [] := by
  intro fuel
  induction fuel with
  | zero =>
    intro st h
    rw [runSteps_zero]
    left
    omega
  | succ fuel ih =>
    intro st h
    rw [runSteps_succ_eq]
    by_cases hc : st.nowSize < target
    · rw [if_pos hc]
      cases hs : bpeStep st with
      | some st2 =>
        obtain ⟨_, _, hns, _, _⟩ := bpeStep_basic st st2 hs
        show target ≤ (runSteps target fuel st2).nowSize
          ∨ count_pairs (runSteps target fuel st2).tokens = []
        exact ih st2 (by omega)
      | none =>
        show target ≤ st.nowSize ∨ count_pairs st.tokens = []
        right
        exact (bpeStep_eq_none st).mp hs
    · rw [if_neg hc]
      left
      omega

theorem maxPair_mem_zip (tokens : List Nat) (hne : count_pairs tokens ≠ []) :
    maxPair (count_pairs tokens) ∈ tokens.zip tokens.tail := by
  obtain ⟨e, rest, hm⟩ : ∃ e rest, count_pairs tokens = e :: rest := by
    cases h : count_pairs tokens with
    | nil => exact absurd h hne
    | cons e rest => exact ⟨e, rest, rfl⟩
  have hkeys := count_pairs_fold_keys (tokens.zip tokens.tail) (tokens.zip tokens.tail) [] []
    (by simp) (by simp) (by simp)
  rw [← count_pairs] at hkeys
  obtain ⟨hmem, -⟩ := hkeys
  obtain ⟨l1, l2, hsplit, -, -⟩ := pickMax_fold e rest
  have hmax : maxPair (count_pairs tokens) = (rest.foldl pickMax e).1 := by rw [hm]; rfl
  have hrm : rest.foldl pickMax e ∈ count_pairs tokens := by
    rw [hm, hsplit]
    exact List.mem_append_right l1 (List.mem_cons_self _ _)
  rw [hmax]
  have h1 := List.mem_map_of_mem Prod.fst hrm
  have h2 := (hmem _).mp h1
  simpa using h2

theorem initState_inv (data : List Nat) (specials : List (List Nat)) (np : Nat)
    (tks : List Nat) (htk : trainTokens data specials np = some tks) :
    TrainInv specials (initState specials tks) := by
  refine ⟨?_, ?_, ?_⟩
  · show baseVocab specials = baseVocab specials ++ mergeEntries (256 + specials.length) []
    rw [mergeEntries, List.append_nil]
  · show (baseVocab specials).length = 256 + specials.length + ([] : List (List Nat × List Nat)).length
    rw [baseVocab_length]
    simp
  · intro t ht
    show t < (baseVocab specials).length
    rw [baseVocab_length]
    exact trainTokens_bound data specials np tks htk t ht

/-- Claim C2: at every point of a training run the vocabulary maps ids
0..255 to the single bytes, ids 256..256+S-1 to the special tokens in the
order supplied, and every later id to the concatenation of the byte values
of the two tokens merged to create it as looked up at merge time (the
vocabulary is exactly the base vocabulary followed by one concatenation
entry per recorded merge); its size equals now_vocab_size, every live
token id resolves in it (and in particular the two byte values of the
selected pair are found when a merge happens), and one loop turn only
extends the vocabulary, never removing or reassigning an entry. -/
theorem vocab_invariant (data : List Nat) (specials : List (List Nat)) (vs np k : Nat)
    (tks : List Nat)
    (_hne : ∀ s ∈ specials, s ≠ [])
    (htk : trainTokens data specials np = some tks) :
    (∀ i, i < 256 → dictGet (runSteps vs k (initState specials tks)).vocab i = some [i])
    ∧ (∀ j, j < specials.length →
        dictGet (runSteps vs k (initState specials tks)).vocab (256 + j) = specials.get? j)
    ∧ (∀ j, j < (runSteps vs k (initState specials tks)).merge.length →
        dictGet (runSteps vs k (initState specials tks)).vocab (256 + specials.length + j)
          = ((runSteps vs k (initState specials tks)).merge.get? j).map (fun p => p.1 ++ p.2))
    ∧ (runSteps vs k (initState specials tks)).vocab
        = baseVocab specials
          ++ mergeEntries (256 + specials.length) (runSteps vs k (initState specials tks)).merge
    ∧ (runSteps vs k (initState specials tks)).vocab.length
        = (runSteps vs k (initState specials tks)).nowSize
    ∧ (∀ t ∈ (runSteps vs k (initState specials tks)).tokens,
        (dictGet (runSteps vs k (initState specials tks)).vocab t).isSome = true)
    ∧ (count_pairs (runSteps vs k (initState specials tks)).tokens ≠ [] →
        (dictGet (runSteps vs k (initState specials tks)).vocab
          (maxPair (count_pairs (runSteps vs k (initState specials tks)).tokens)).1).isSome = true
        ∧ (dictGet (runSteps vs k (initState specials tks)).vocab
          (maxPair (count_pairs (runSteps vs k (initState specials tks)).tokens)).2).isSome = true)
    ∧ (runSteps vs k (initState specials tks)).vocab
        <+: (runSteps vs (k + 1) (initState specials tks)).vocab := by
  have hinv := runSteps_inv specials vs k (initState specials tks)
    (initState_inv data specials np tks htk)
  refine ⟨fun i hi => dictGet_inv_byte specials _ hinv i hi,
    fun j hj => dictGet_inv_special specials _ hinv j hj,
    fun j hj => dictGet_inv_merge specials _ hinv j hj,
    hinv.1, ?_, ?_, ?_, ?_⟩
  · rw [hinv.1, List.length_append, baseVocab_length, mergeEntries_length, hinv.2.1]
  · intro t ht
    exact dictGet_inv_isSome specials _ hinv t (hinv.2.2 t ht)
  · intro hne2
    have hmem := maxPair_mem_zip _ hne2
    have h1 := (List.of_mem_zip hmem).1
    have h2 := List.mem_of_mem_tail (List.of_mem_zip hmem).2
    exact ⟨dictGet_inv_isSome specials _ hinv _ (hinv.2.2 _ h1),
      dictGet_inv_isSome specials _ hinv _ (hinv.2.2 _ h2)⟩
  · rw [runSteps_succ]
    unfold loopOnce
    by_cases hc : (runSteps vs k (initState specials tks)).nowSize < vs
    · rw [if_pos hc]
      cases hs : bpeStep (runSteps vs k (initState specials tks)) with
      | some st2 =>
        rw [(bpeStep_inv specials _ st2 hinv hs).2]
        exact List.prefix_append _ _
      | none => exact List.prefix_refl _
    · rw [if_neg hc]

/-- Witness for C2 at corpus [97, 0, 98], one special token [0], target
258, one process, after one loop turn. -/
theorem vocab_invariant_witness :
    (∀ i, i < 256 → dictGet (runSteps 258 1 (initState [[0]] [97, 256, 98])).vocab i = some [i])
    ∧ (∀ j, j < ([[0]] : List (List Nat)).length →
        dictGet (runSteps 258 1 (initState [[0]] [97, 256, 98])).vocab (256 + j)
          = ([[0]] : List (List Nat)).get? j)
    ∧ (∀ j, j < (runSteps 258 1 (initState [[0]] [97, 256, 98])).merge.length →
        dictGet (runSteps 258 1 (initState [[0]] [97, 256, 98])).vocab
            (256 + ([[0]] : List (List Nat)).length + j)
          = ((runSteps 258 1 (initState [[0]] [97, 256, 98])).merge.get? j).map
              (fun p => p.1 ++ p.2))
    ∧ (runSteps 258 1 (initState [[0]] [97, 256, 98])).vocab
        = baseVocab [[0]]
          ++ mergeEntries (256 + ([[0]] : List (List Nat)).length)
              (runSteps 258 1 (initState [[0]] [97, 256, 98])).merge
    ∧ (runSteps 258 1 (initState [[0]] [97, 256, 98])).vocab.length
        = (runSteps 258 1 (initState [[0]] [97, 256, 98])).nowSize
    ∧ (∀ t ∈ (runSteps 258 1 (initState [[0]] [97, 256, 98])).tokens,
        (dictGet (runSteps 258 1 (initState [[0]] [97, 256, 98])).vocab t).isSome = true)
    ∧ (count_pairs (runSteps 258 1 (initState [[0]] [97, 256, 98])).tokens ≠ [] →
        (dictGet (runSteps 258 1 (initState [[0]] [97, 256, 98])).vocab
          (maxPair (count_pairs (runSteps 258 1 (initState [[0]] [97, 256, 98])).tokens)).1).isSome
            = true
        ∧ (dictGet (runSteps 258 1 (initState [[0]] [97, 256, 98])).vocab
          (maxPair (count_pairs (runSteps 258 1 (initState [[0]] [97, 256, 98])).tokens)).2).isSome
            = true)
    ∧ (runSteps 258 1 (initState [[0]] [97, 256, 98])).vocab
        <+: (runSteps 258 (1 + 1) (initState [[0]] [97, 256, 98])).vocab :=
  vocab_invariant [97, 0, 98] [[0]] 258 1 1 [97, 256, 98] (by decide) (by decide)

/-- Claim C3: the final merge list never exceeds the target vocabulary
size minus the base size 256 + S, and reaches that difference exactly
unless the loop stopped on an empty pair-frequency table; the final
vocabulary holds exactly one entry per merge beyond the base and
now_vocab_size equals its size; and every loop turn that performs a merge
assigns the next sequential id equal to the current vocabulary size,
appending exactly one vocabulary entry under that id and exactly one
merge-list entry, and rewrites the token sequence with that id. -/
theorem merge_loop_bounds (data : List Nat) (specials : List (List Nat)) (vs np k : Nat)
    (tks : List Nat)
    (_hne : ∀ s ∈ specials, s ≠ [])
    (htk : trainTokens data specials np = some tks) :
    (runSteps vs vs (initState specials tks)).merge.length ≤ vs - (256 + specials.length)
    ∧ ((runSteps vs vs (initState specials tks)).merge.length ≠ vs - (256 + specials.length) →
        count_pairs (runSteps vs vs (initState specials tks)).tokens = [])
    ∧ (runSteps vs vs (initState specials tks)).vocab.length
        = 256 + specials.length + (runSteps vs vs (initState specials tks)).merge.length
    ∧ (runSteps vs vs (initState specials tks)).nowSize
        = (runSteps vs vs (initState specials tks)).vocab.length
    ∧ (trainFinal data vs specials np
        = some (runSteps vs vs (initState specials tks)))
    ∧ (∀ st2, bpeStep (runSteps vs k (initState specials tks)) = some st2 →
        st2.nowSize = (runSteps vs k (initState specials tks)).nowSize + 1
        ∧ st2.merge.length = (runSteps vs k (initState specials tks)).merge.length + 1
        ∧ st2.vocab.length = (runSteps vs k (initState specials tks)).vocab.length + 1
        ∧ (∃ b, st2.vocab = (runSteps vs k (initState specials tks)).vocab
            ++ [((runSteps vs k (initState specials tks)).vocab.length, b)])
        ∧ st2.tokens = merge_pair_in_tokens (runSteps vs k (initState specials tks)).tokens
            (maxPair (count_pairs (runSteps vs k (initState specials tks)).tokens))
            (runSteps vs k (initState specials tks)).vocab.length) := by
  have hinv0 := initState_inv data specials np tks htk
  have hinvF := runSteps_inv specials vs vs (initState specials tks) hinv0
  have hinvK := runSteps_inv specials vs k (initState specials tks) hinv0
  have hns0 : (initState specials tks).nowSize = 256 + specials.length := by
    show (baseVocab specials).length = 256 + specials.length
    exact baseVocab_length specials
  have hm0 : (initState specials tks).merge = [] := rfl
  obtain ⟨hcnt, hmono⟩ := runSteps_counts vs vs (initState specials tks)
  rw [hns0, hm0] at hcnt
  rw [hns0] at hmono
  simp only [List.length_nil] at hcnt
  have hup := runSteps_upper vs vs (initState specials tks)
  rw [hns0] at hup
  have hlenF : (runSteps vs vs (initState specials tks)).vocab.length
      = 256 + specials.length + (runSteps vs vs (initState specials tks)).merge.length := by
    rw [hinvF.1, List.length_append, baseVocab_length, mergeEntries_length]
  have hstop := runSteps_stop vs vs (initState specials tks)
  rw [hns0] at hstop
  refine ⟨?_, ?_, hlenF, ?_, ?_, ?_⟩
  · by_cases hbv : 256 + specials.length < vs
    · omega
    · have hnoop := runSteps_noop vs vs (initState specials tks) (by omega)
      rw [hnoop, hm0]
      simp
  · intro hne2
    by_cases hbv : 256 + specials.length < vs
    · rcases hstop (by omega) with h | h
      · exact absurd (by omega : (runSteps vs vs (initState specials tks)).merge.length
          = vs - (256 + specials.length)) hne2
      · exact h
    · have hnoop := runSteps_noop vs vs (initState specials tks) (by omega)
      rw [hnoop, hm0] at hne2
      exact absurd (by simp only [List.length_nil]; omega) hne2
  · rw [hlenF, hinvF.2.1]
  · unfold trainFinal
    rw [htk]
    rfl
  · intro st2 hs
    obtain ⟨hinv2, hvap⟩ := bpeStep_inv specials _ st2 hinvK hs
    obtain ⟨hm, htok, hns, _, _⟩ := bpeStep_basic _ st2 hs
    have hlenK : (runSteps vs k (initState specials tks)).vocab.length
        = (runSteps vs k (initState specials tks)).nowSize := by
      rw [hinvK.1, List.length_append, baseVocab_length, mergeEntries_length, hinvK.2.1]
    refine ⟨hns, ?_, ?_, ⟨_, by rw [hvap, hlenK]⟩, by rw [htok, hlenK]⟩
    · rw [hm, List.length_append]
      simp
    · rw [hvap, List.length_append]
      simp

/-- Witness for C3 at corpus [97, 97, 98, 97], no special tokens, target
257, one process, inspecting loop turn 0. -/
theorem merge_loop_bounds_witness :
    (runSteps 257 257 (initState [] [97, 97, 98, 97])).merge.length
        ≤ 257 - (256 + ([] : List (List Nat)).length)
    ∧ ((runSteps 257 257 (initState [] [97, 97, 98, 97])).merge.length
          ≠ 257 - (256 + ([] : List (List Nat)).length) →
        count_pairs (runSteps 257 257 (initState [] [97, 97, 98, 97])).tokens = [])
    ∧ (runSteps 257 257 (initState [] [97, 97, 98, 97])).vocab.length
        = 256 + ([] : List (List Nat)).length
          + (runSteps 257 257 (initState [] [97, 97, 98, 97])).merge.length
    ∧ (runSteps 257 257 (initState [] [97, 97, 98, 97])).nowSize
        = (runSteps 257 257 (initState [] [97, 97, 98, 97])).vocab.length
    ∧ (trainFinal [97, 97, 98, 97] 257 [] 1
        = some (runSteps 257 257 (initState [] [97, 97, 98, 97])))
    ∧ (∀ st2, bpeStep (runSteps 257 0 (initState [] [97, 97, 98, 97])) = some st2 →
        st2.nowSize = (runSteps 257 0 (initState [] [97, 97, 98, 97])).nowSize + 1
        ∧ st2.merge.length = (runSteps 257 0 (initState [] [97, 97, 98, 97])).merge.length + 1
        ∧ st2.vocab.length = (runSteps 257 0 (initState [] [97, 97, 98, 97])).vocab.length + 1
        ∧ (∃ b, st2.vocab = (runSteps 257 0 (initState [] [97, 97, 98, 97])).vocab
            ++ [((runSteps 257 0 (initState [] [97, 97, 98, 97])).vocab.length, b)])
        ∧ st2.tokens = merge_pair_in_tokens (runSteps 257 0 (initState [] [97, 97, 98, 97])).tokens
            (maxPair (count_pairs (runSteps 257 0 (initState [] [97, 97, 98, 97])).tokens))
            (runSteps 257 0 (initState [] [97, 97, 98, 97])).vocab.length) :=
  merge_loop_bounds [97, 97, 98, 97] [] 257 1 0 [97, 97, 98, 97] (by decide) (by decide)

/-- Claim C4: when the target vocabulary size is at most the base size
256 + S the training loop never runs, so training returns the base
vocabulary and an empty merge list without error; and a zero-byte corpus
tokenizes to an empty token sequence with an empty pair-frequency table,
so the merge list is empty and the vocabulary is the base vocabulary.
Stated for configurations the source survives: every special token
nonempty, and at least one special token when several processes are
requested. -/
theorem degenerate_inputs (data : List Nat) (specials : List (List Nat)) (vs np : Nat)
    (_hne : ∀ s ∈ specials, s ≠ [])
    (hcfg : np ≤ 1 ∨ specials ≠ []) :
    (vs ≤ 256 + specials.length →
      ∃ st, trainFinal data vs specials np = some st
        ∧ st.merge = [] ∧ st.vocab = baseVocab specials)
    ∧ (data = [] →
      ∃ st, trainFinal data vs specials np = some st
        ∧ st.tokens = [] ∧ count_pairs st.tokens = [] ∧ st.merge = []
        ∧ st.vocab = baseVocab specials) := by
  obtain ⟨tks, htk⟩ : ∃ tks, trainTokens data specials np = some tks := by
    unfold trainTokens
    by_cases hnp : 1 < np
    · rw [if_pos hnp]
      cases specials with
      | nil =>
        rcases hcfg with h | h
        · omega
        · exact absurd rfl h
      | cons s0 sRest => exact ⟨_, rfl⟩
    · rw [if_neg hnp]
      exact ⟨_, rfl⟩
  have hfin : trainFinal data vs specials np
      = some (runSteps vs vs (initState specials tks)) := by
    unfold trainFinal
    rw [htk]
    rfl
  have hns0 : (initState specials tks).nowSize = 256 + specials.length := by
    show (baseVocab specials).length = 256 + specials.length
    exact baseVocab_length specials
  constructor
  · intro hvs
    refine ⟨runSteps vs vs (initState specials tks), hfin, ?_, ?_⟩
    · rw [runSteps_noop vs vs _ (by omega)]
      rfl
    · rw [runSteps_noop vs vs _ (by omega)]
      rfl
  · intro hdata
    subst hdata
    have htke : tks = [] := by
      unfold trainTokens at htk
      by_cases hnp : 1 < np
      · rw [if_pos hnp] at htk
        cases specials with
        | nil =>
          rcases hcfg with h | h
          · omega
          · exact absurd rfl h
        | cons s0 sRest =>
          obtain ⟨rest, hbs, hsort, hub, hlast⟩ := boundaries_shape [] s0 np (by omega)
          have hrest : rest = [] := by
            cases rest with
            | nil => rfl
            | cons y t =>
              have hy := hub y (List.mem_cons_of_mem 0 (List.mem_cons_self y t))
              have hlt := (List.pairwise_cons.mp hsort).1 y (List.mem_cons_self y t)
              simp only [List.length_nil] at hy
              omega
          rw [hrest] at hbs
          have h2 : (((chunksOf [] (find_chunk_boundaries [] np s0)).map
              (fun ch => chunk2token ch (s0 :: sRest) (baseVocab (s0 :: sRest)))).flatten) = tks := by
            injection htk
          rw [hbs] at h2
          rw [← h2]
          rfl
      · rw [if_neg hnp] at htk
        have h2 : chunk2token [] specials (baseVocab specials) = tks := by injection htk
        rw [← h2]
        rfl
    subst htke
    have hstep : bpeStep (initState specials []) = none := by
      rw [bpeStep_eq_none]
      rfl
    refine ⟨runSteps vs vs (initState specials []), hfin, ?_, ?_, ?_, ?_⟩ <;>
      rw [runSteps_stop_none vs vs _ hstep] <;> rfl

/-- Witness for C4 at the empty corpus, one special token [0], target 100
(below the base size 257), two processes. -/
theorem degenerate_inputs_witness :
    (100 ≤ 256 + ([[0]] : List (List Nat)).length →
      ∃ st, trainFinal [] 100 [[0]] 2 = some st
        ∧ st.merge = [] ∧ st.vocab = baseVocab [[0]])
    ∧ (([] : List Nat) = [] →
      ∃ st, trainFinal [] 100 [[0]] 2 = some st
        ∧ st.tokens = [] ∧ count_pairs st.tokens = [] ∧ st.merge = []
        ∧ st.vocab = baseVocab [[0]]) :=
  degenerate_inputs [] [[0]] 100 2 (by decide) (by decide)

/-- Claim C9: requesting more than one process with an empty special-token
list fails before any tokenization or merging: the tokenizing stage
produces nothing and the training call returns no vocabulary or merge
list (the source raises IndexError at special_tokens[0]). -/
theorem invalid_configuration (data : List Nat) (vs np : Nat) (h : 1 < np) :
    BPETokenizerTraining data vs [] np = none ∧ trainTokens data [] np = none := by
  have ht : trainTokens data [] np = none := by
    unfold trainTokens
    rw [if_pos h]
  refine ⟨?_, ht⟩
  unfold BPETokenizerTraining trainFinal
  rw [ht]
  rfl

/-- Witness for C9 at corpus [1, 2, 3], target 300, two processes. -/
theorem invalid_configuration_witness :
    BPETokenizerTraining [1, 2, 3] 300 [] 2 = none ∧ trainTokens [1, 2, 3] [] 2 = none :=
  invalid_configuration [1, 2, 3] 300 2 (by decide)
